import Mathlib

/- Verification of the surrogate-graph core of braingraphgeo
   (braingraphgeo/surrogates.py and braingraphgeo/utils.py).

   Modelling conventions.
   1-D numpy float arrays are modelled as List over a linearly ordered type
   (instantiated at the rationals), 2-D square arrays as functions
   Fin n → Fin n → ℚ.  Exact rational arithmetic replaces IEEE floats.

   numpy argsort is modelled with a stable tie-break: the indices
   0, ..., l.length - 1 are ordered by the lexicographic key
   (value, index).  numpy introsort delegates small arrays to a stable
   insertion sort, so this agrees with the implementation on the
   concrete inputs used below; no general statement below depends on the
   tie-break except where a theorem explicitly assumes distinct values.

   Division by zero: the Python code produces IEEE inf or nan at a
   division by a zero column sum, and the embedding uses the ℚ
   convention x / 0 = 0 instead.  The two semantics agree exactly when
   every division by zero happens at a column that the code zeroes
   explicitly right afterwards (the disconnected columns), because the
   offending entries are then overwritten in both; they diverge when a
   divisor vanishes at a column that is not masked, where the float
   code keeps nan.  Accordingly, every general theorem below about
   strength_correct and the surrogate outputs carries hypotheses —
   nonnegative entries and targets positive at connected columns —
   under which strength_correct_nonneg_poscol proves that no divisor at
   an unmasked column ever vanishes, confining the statements to the
   regime where the exact model and the float program coincide; for the
   strength corrections performed inside randomsurr and geomsurr the
   target-positivity condition is not an extra assumption but a proved
   consequence of nonnegativity (randomsurr_inner_target_pos and
   geomsurr_inner_target_pos).  Where a divisor does become zero at a
   connected column (claim C6), the embedding makes this observable
   without modelling nan itself: sc_divisor exposes every divisor, and
   the concrete evaluations used by counterexamples and witnesses only
   ever divide by zero at masked columns, so they equal the float
   results entry for entry.

   The natural logarithm and exponential are not rational functions, so
   the two places where the code maps weights through log, permutes, and
   maps back through exp are embedded as the composite action on the
   weights themselves.  The composites are exactly the permutation
   (randomsurr, lines 112-117) and the rank reordering (geomsurr,
   lines 46-66) of the positive weights: exp and log are mutually
   inverse strictly monotone bijections between the positive reals and
   the reals, and both indexD and rank_reorder commute with strictly
   monotone maps.  The lemmas indexD_map_strictMono, exp_log_indexD,
   rank_reorder_map_strictMono and exp_log_rank_reorder below prove
   these commutations, over ℝ, so that the collapsed embedding is
   justified inside this development rather than only asserted. -/

/- Square rational matrix, indexed as M row column. -/
abbrev Mat (n : ℕ) : Type := Fin n → Fin n → ℚ

/- Key relation of the stable argsort of l: index i comes before index j
   when (l[i], i) is lexicographically at most (l[j], j). -/
def argsortRel {α : Type} [LinearOrder α] [Inhabited α] (l : List α) (i j : ℕ) : Prop :=
  l.getD i default < l.getD j default ∨ (l.getD i default = l.getD j default ∧ i ≤ j)

instance argsortRelDecidable {α : Type} [LinearOrder α] [Inhabited α] (l : List α) :
    DecidableRel (argsortRel l) := fun i j => by
  unfold argsortRel
  infer_instance

/- numpy argsort (surrogates.py line 190): the list of indices
   0, ..., l.length - 1 sorted by value, stable tie-break. -/
def argsort {α : Type} [LinearOrder α] [Inhabited α] (l : List α) : List ℕ :=
  (List.range l.length).insertionSort (argsortRel l)

/- numpy sort, ascending (surrogates.py line 191). -/
def sortAsc {α : Type} [LinearOrder α] (x : List α) : List α :=
  x.insertionSort (fun a b => a ≤ b)

/- Fancy indexing a[idx] of a 1-D array by a list of indices. -/
def indexD {α : Type} [Inhabited α] (l : List α) (idx : List ℕ) : List α :=
  idx.map (fun i => l.getD i default)

/- surrogates.py lines 165-192 (rank_reorder).  The source computes
   n = arange(x.size), inds = scaffold.argsort(), and returns
   np.sort(x)[n[inds].argsort()].  Since n is the identity permutation,
   n[inds] = inds, so the index list is argsort (argsort scaffold). -/
def rank_reorder {α β : Type} [LinearOrder α] [Inhabited α] [LinearOrder β] [Inhabited β]
    (x : List α) (scaffold : List β) : List α :=
  indexD (sortAsc x) (argsort (argsort scaffold))

/- Rank of position p in list l: the number of entries of l strictly
   below the entry at p.  Used to state claim C2. -/
def rankOf {α : Type} [LinearOrder α] [Inhabited α] (l : List α) (p : ℕ) : ℕ :=
  l.countP (fun v => decide (v < l.getD p default))

/- Column sum W.sum(0) of a square matrix. -/
def colsum {n : ℕ} (M : Mat n) (j : Fin n) : ℚ := ∑ i, M i j

/- Elementwise column scaling W * ss / W.sum(0)[None, :]
   (surrogates.py lines 156 and 159).  When colsum M j = 0 the source
   produces inf or nan entries in column j while this definition
   produces 0 (ℚ convention); see the header note: all theorems stated
   about strength_correct either restrict to the regime where a zero
   divisor occurs only at columns zeroed immediately afterwards
   (strength_correct_nonneg_poscol, randomsurr_inner_target_pos,
   geomsurr_inner_target_pos), or expose the divisors themselves
   through sc_divisor. -/
def scaleCols {n : ℕ} (ss : Fin n → ℚ) (M : Mat n) : Mat n :=
  fun i j => M i j * (ss j / colsum M j)

/- sW[:, discnodes] = 0 (surrogates.py lines 157 and 160): zero every
   column of M whose column in W sums to zero. -/
def zeroDiscCols {n : ℕ} (W M : Mat n) : Mat n :=
  fun i j => if colsum W j = 0 then 0 else M i j

/- sW = (sW + sW.T) / 2 (surrogates.py line 161). -/
def symmAvg {n : ℕ} (M : Mat n) : Mat n := fun i j => (M i j + M j i) / 2

/- State of sW after line 157, entering the loop. -/
def sc_init {n : ℕ} (W : Mat n) (ss : Fin n → ℚ) : Mat n :=
  zeroDiscCols W (scaleCols ss W)

/- One iteration of the loop body, surrogates.py lines 158-161. -/
def sc_iter {n : ℕ} (W : Mat n) (ss : Fin n → ℚ) (M : Mat n) : Mat n :=
  symmAvg (zeroDiscCols W (scaleCols ss M))

/- surrogates.py lines 129-162 (strength_correct). -/
def strength_correct {n : ℕ} (W : Mat n) (ss : Fin n → ℚ) (nreps : ℕ) : Mat n :=
  (sc_iter W ss)^[nreps] (sc_init W ss)

/- The divisor of the k-th division performed by strength_correct at
   column j: stage 0 is the initial scaling (line 156), which divides by
   the column sums of W; stage k + 1 is loop iteration k (line 159),
   which divides by the column sums of the state after k full
   iterations. -/
def sc_divisor {n : ℕ} (W : Mat n) (ss : Fin n → ℚ) : ℕ → Fin n → ℚ
  | 0, j => colsum W j
  | k + 1, j => colsum (strength_correct W ss k) j

/- All index pairs of an n × n array in row-major (C) order. -/
def pairsL (n : ℕ) : List (Fin n × Fin n) :=
  List.product (List.finRange n) (List.finRange n)

/- The positions selected by a boolean mask, in row-major order, as in
   numpy boolean indexing. -/
def maskedPairs {n : ℕ} (mask : Fin n → Fin n → Bool) : List (Fin n × Fin n) :=
  (pairsL n).filter (fun p => mask p.1 p.2)

/- W[mask]: the masked entries as a 1-D array in row-major order. -/
def maskedValues {n : ℕ} (M : Mat n) (mask : Fin n → Fin n → Bool) : List ℚ :=
  (maskedPairs mask).map (fun p => M p.1 p.2)

/- M[mask] = vals: boolean fancy assignment; the k-th masked position in
   row-major order receives vals[k], every unmasked position keeps its
   entry of M. -/
def assignMasked {n : ℕ} (M : Mat n) (mask : Fin n → Fin n → Bool) (vals : List ℚ) : Mat n :=
  fun i j =>
    if mask i j then
      vals.getD (@List.indexOf _ instBEqOfDecidableEq (i, j) (maskedPairs mask)) 0
    else M i j

/- np.fill_diagonal(W, 0) (surrogates.py lines 37 and 104): the state of
   the array after the in-place diagonal zeroing. -/
def fill_diagonal {n : ℕ} (M : Mat n) : Mat n := fun i j => if i = j then 0 else M i j

/- np.triu (surrogates.py lines 40 and 107): keep the diagonal and the
   part above it. -/
def triu {n : ℕ} (M : Mat n) : Mat n := fun i j => if (i : ℕ) ≤ (j : ℕ) then M i j else 0

/- np.max over all entries of a square matrix; bottom for n = 0, where
   numpy np.max raises instead. -/
def maxEntry {n : ℕ} (M : Mat n) : WithBot ℚ :=
  Finset.univ.sup (fun p : Fin n × Fin n => ((M p.1 p.2 : ℚ) : WithBot ℚ))

/- drct = 0 if np.max(W - W.T) == 0 else 1
   (surrogates.py lines 31 and 98). -/
def directedFlag {n : ℕ} (W : Mat n) : ℕ :=
  if maxEntry (fun i j => W i j - W j i) = ((0 : ℚ) : WithBot ℚ) then 0 else 1

/- The matrix bound to the local name W after surrogates.py lines 30-40
   (geomsurr) or 97-107 (randomsurr): diagonal zeroed in place, then
   replaced by its upper triangle when the symmetry test holds. -/
def surr_W1 {n : ℕ} (W : Mat n) : Mat n :=
  if directedFlag W = 0 then triu (fill_diagonal W) else fill_diagonal W

/- nz = W != 0 (surrogates.py line 110). -/
def nz_mask {n : ℕ} (W1 : Mat n) : Fin n → Fin n → Bool :=
  fun i j => decide (W1 i j ≠ 0)

/- W = W + W.T and Wrs = Wrs + Wrs.T (surrogates.py lines 68-70 and
   119-121). -/
def symmetrizeAdd {n : ℕ} (M : Mat n) : Mat n := fun i j => M i j + M j i

/- surrogates.py lines 109-117: w = W[nz]; logw = np.log(w);
   surr = logw[shuff]; Wrs[nz] = np.exp(surr).  Since
   np.exp(np.log(w)[shuff]) = w[shuff] for positive w (lemma
   exp_log_indexD below), the composite assigns the permuted weights
   themselves.  The permutation np.random.permutation(logw.size) is a
   caller-visible source of randomness, modelled by the parameter
   shuff. -/
def randomsurr_Wrs {n : ℕ} (W1 : Mat n) (shuff : List ℕ) : Mat n :=
  assignMasked (fun _ _ => 0) (nz_mask W1) (indexD (maskedValues W1 (nz_mask W1)) shuff)

/- surrogates.py lines 81-126 (randomsurr).  Returns the result together
   with the final state of the caller array W: np.fill_diagonal on
   line 104 is the only in-place operation applied to it, while the
   rebindings W = np.triu(W) (line 107) and W = W + W.T (line 121)
   allocate fresh arrays, and strength_correct only reads its
   arguments. -/
def randomsurr {n : ℕ} (W : Mat n) (shuff : List ℕ) : Mat n × Mat n :=
  let W1 := surr_W1 W
  let Wrs := randomsurr_Wrs W1 shuff
  let Wrs2 := if directedFlag W = 0 then symmetrizeAdd Wrs else Wrs
  let W2 := if directedFlag W = 0 then symmetrizeAdd W1 else W1
  (strength_correct Wrs2 (colsum W2) 9, fill_diagonal W)

/- nz = (W != 0) & (~np.isnan(D)) (surrogates.py line 43).  A distance
   matrix entry is none when the numpy entry is nan. -/
def geom_mask {n : ℕ} (W1 : Mat n) (D : Fin n → Fin n → Option ℚ) : Fin n → Fin n → Bool :=
  fun i j => decide (W1 i j ≠ 0) && (D i j).isSome

/- surrogates.py lines 43-66: the weight-preserving matrix Wwp.  The
   pipeline of lines 46-62 (logw = np.log(w), two polynomial fits,
   residual standardization, shuffle, re-synthesis) produces a real
   scaffold mnsurr of the same length as the valid-edge list; it
   involves the transcendental log and least-squares fits, so the
   scaffold enters as a parameter.  Lines 65-66 then assign
   np.exp(rank_reorder(logw, mnsurr)) at the masked positions, and for
   positive weights this equals rank_reorder(w, mnsurr) (lemma
   exp_log_rank_reorder below), which is what is embedded. -/
def geom_Wwp {n : ℕ} (W1 : Mat n) (D : Fin n → Fin n → Option ℚ) (mnsurr : List ℚ) : Mat n :=
  assignMasked (fun _ _ => 0) (geom_mask W1 D)
    (rank_reorder (maskedValues W1 (geom_mask W1 D)) mnsurr)

/- surrogates.py lines 4-78 (geomsurr).  Returns the result together
   with the final states of the caller arrays W and D: the diagonal
   zeroing on line 37 is the only in-place operation applied to W, and D
   is only read (lines 43 and 45). -/
def geomsurr {n : ℕ} (W : Mat n) (D : Fin n → Fin n → Option ℚ) (mnsurr : List ℚ) :
    Mat n × Mat n × (Fin n → Fin n → Option ℚ) :=
  let W1 := surr_W1 W
  let Wwp := geom_Wwp W1 D mnsurr
  let Wwp2 := if directedFlag W = 0 then symmetrizeAdd Wwp else Wwp
  let W2 := if directedFlag W = 0 then symmetrizeAdd W1 else W1
  let str_Wsp := rank_reorder ((List.finRange n).map (colsum W2))
    ((List.finRange n).map (colsum Wwp2))
  (strength_correct Wwp2 (fun j => str_Wsp.getD (j : ℕ) 0) 9, fill_diagonal W, D)

/- utils.py line 69, as written in the source: the guard of the shape
   check in build_spearman_correlation_matrix compares mat1.shape with
   mat1.shape itself (not with mat2.shape).  Returns true exactly when
   the ValueError of line 70 would be raised. -/
def spearman_shape_guard (shape1 _shape2 : ℕ × ℕ) : Bool := decide (shape1 ≠ shape1)

/- Concrete instances used by counterexamples and witnesses below. -/

/- The example matrix of the spec (section 8): W = [[0,2,0],[2,0,0],[0,0,0]]. -/
def Wex3 : Mat 3 := ![![0, 2, 0], ![2, 0, 0], ![0, 0, 0]]

/- The example target strengths of the spec (section 8): [2, 2, 0]. -/
def ssEx3 : Fin 3 → ℚ := ![2, 2, 0]

/- A directed matrix whose node 0 has zero in-strength (zero column sum)
   but nonzero out-strength. -/
def Wdir2 : Mat 2 := ![![0, 1], ![0, 0]]

/- Target strengths [1, 1]. -/
def ssOnes2 : Fin 2 → ℚ := ![1, 1]

/- A connected symmetric 2-node matrix. -/
def Wsym2 : Mat 2 := ![![0, 1], ![1, 0]]

/- Target strengths [0, 1]: a zero target at a connected node. -/
def ssZero2 : Fin 2 → ℚ := ![0, 1]

/- The fixed point [[0, 1/2], [1/2, 0]] reached by strength_correct on
   Wdir2 with targets ssOnes2. -/
def Mfix2 : Mat 2 := ![![0, 1/2], ![1/2, 0]]

/- A symmetric weight matrix with one undirected edge, for the geomsurr
   weight-multiset witness. -/
def Wex8 : Mat 2 := ![![0, 2], ![2, 0]]

/- A fully observed distance matrix on two nodes. -/
def Dex2 : Fin 2 → Fin 2 → Option ℚ := fun _ _ => some 1

/- Basic properties of the stable argsort. -/

lemma argsortRel_total {α : Type} [LinearOrder α] [Inhabited α] (l : List α) (i j : ℕ) :
    argsortRel l i j ∨ argsortRel l j i := by
  rcases lt_trichotomy (l.getD i default) (l.getD j default) with h | h | h
  · exact Or.inl (Or.inl h)
  · rcases le_total i j with hij | hij
    · exact Or.inl (Or.inr ⟨h, hij⟩)
    · exact Or.inr (Or.inr ⟨h.symm, hij⟩)
  · exact Or.inr (Or.inl h)

lemma argsortRel_trans {α : Type} [LinearOrder α] [Inhabited α] (l : List α) (i j k : ℕ)
    (h1 : argsortRel l i j) (h2 : argsortRel l j k) : argsortRel l i k := by
  rcases h1 with h1 | ⟨h1e, h1le⟩
  · rcases h2 with h2 | ⟨h2e, _⟩
    · exact Or.inl (h1.trans h2)
    · exact Or.inl (h2e ▸ h1)
  · rcases h2 with h2 | ⟨h2e, h2le⟩
    · exact Or.inl (h1e ▸ h2)
    · exact Or.inr ⟨h1e.trans h2e, h1le.trans h2le⟩

lemma argsortRel_antisymm {α : Type} [LinearOrder α] [Inhabited α] (l : List α) {i j : ℕ}
    (h1 : argsortRel l i j) (h2 : argsortRel l j i) : i = j := by
  rcases h1 with h1 | ⟨h1e, h1le⟩
  · rcases h2 with h2 | ⟨h2e, _⟩
    · exact absurd (h1.trans h2) (lt_irrefl _)
    · exact absurd h1 (not_lt.mpr (le_of_eq h2e))
  · rcases h2 with h2 | ⟨h2e, h2le⟩
    · exact absurd h2 (not_lt.mpr (le_of_eq h1e))
    · exact le_antisymm h1le h2le

lemma sorted_argsort {α : Type} [LinearOrder α] [Inhabited α] (l : List α) :
    List.Sorted (argsortRel l) (argsort l) := by
  haveI : IsTotal ℕ (argsortRel l) := ⟨argsortRel_total l⟩
  haveI : IsTrans ℕ (argsortRel l) := ⟨argsortRel_trans l⟩
  exact List.sorted_insertionSort _ _

lemma argsort_perm_range {α : Type} [LinearOrder α] [Inhabited α] (l : List α) :
    (argsort l).Perm (List.range l.length) :=
  List.perm_insertionSort _ _

lemma length_argsort {α : Type} [LinearOrder α] [Inhabited α] (l : List α) :
    (argsort l).length = l.length := by
  simpa using (argsort_perm_range l).length_eq

lemma argsort_nodup {α : Type} [LinearOrder α] [Inhabited α] (l : List α) :
    (argsort l).Nodup :=
  (argsort_perm_range l).nodup_iff.mpr (List.nodup_range _)

lemma mem_argsort_lt {α : Type} [LinearOrder α] [Inhabited α] (l : List α) {i : ℕ}
    (h : i ∈ argsort l) : i < l.length :=
  List.mem_range.mp ((argsort_perm_range l).mem_iff.mp h)

lemma map_getD_range {α : Type} [Inhabited α] (l : List α) :
    (List.range l.length).map (fun i => l.getD i default) = l := by
  apply List.ext_getElem
  · simp
  · intro i h1 h2
    rw [List.getElem_map, List.getElem_range, List.getD_eq_getElem _ _ h2]

lemma indexD_length {α : Type} [Inhabited α] (l : List α) (idx : List ℕ) :
    (indexD l idx).length = idx.length :=
  List.length_map _ _

lemma indexD_perm {α : Type} [Inhabited α] (l : List α) (idx : List ℕ)
    (h : idx.Perm (List.range l.length)) : (indexD l idx).Perm l := by
  have h2 := h.map (fun i => l.getD i default)
  rw [map_getD_range] at h2
  exact h2

lemma length_rank_reorder {α β : Type} [LinearOrder α] [Inhabited α] [LinearOrder β]
    [Inhabited β] (x : List α) (scaffold : List β) :
    (rank_reorder x scaffold).length = scaffold.length := by
  simp [rank_reorder, indexD_length, length_argsort]

lemma sortAsc_perm {α : Type} [LinearOrder α] (x : List α) : (sortAsc x).Perm x :=
  List.perm_insertionSort _ _

lemma length_sortAsc {α : Type} [LinearOrder α] (x : List α) :
    (sortAsc x).length = x.length :=
  List.length_insertionSort _ _

lemma sortAsc_sorted {α : Type} [LinearOrder α] (x : List α) :
    List.Sorted (fun a b : α => a ≤ b) (sortAsc x) :=
  List.sorted_insertionSort _ _

lemma rank_reorder_perm {α β : Type} [LinearOrder α] [Inhabited α] [LinearOrder β]
    [Inhabited β] (x : List α) (scaffold : List β) (hlen : x.length = scaffold.length) :
    (rank_reorder x scaffold).Perm x := by
  have h1 : (argsort (argsort scaffold)).Perm (List.range (sortAsc x).length) := by
    have h0 := argsort_perm_range (argsort scaffold)
    rw [length_argsort] at h0
    rw [length_sortAsc, hlen]
    exact h0
  exact (indexD_perm _ _ h1).trans (sortAsc_perm x)

lemma sortAsc_eq_of_perm {α : Type} [LinearOrder α] {x y : List α} (h : x.Perm y) :
    sortAsc x = sortAsc y := by
  haveI : IsAntisymm α (fun a b : α => a ≤ b) := ⟨fun a b => le_antisymm⟩
  exact List.eq_of_perm_of_sorted ((sortAsc_perm x).trans (h.trans (sortAsc_perm y).symm))
    (sortAsc_sorted x) (sortAsc_sorted y)

/-- Claim C1: for every pair of equal-length sequences x and scaffold,
rank_reorder x scaffold returns a sequence of the same length that is a
permutation of x (multiset-equal: sorting the output yields the same
sequence as sorting x), with no further precondition on the values. -/
theorem rank_reorder_length_perm {α β : Type} [LinearOrder α] [Inhabited α] [LinearOrder β]
    [Inhabited β] (x : List α) (scaffold : List β) (hlen : x.length = scaffold.length) :
    (rank_reorder x scaffold).length = x.length ∧ (rank_reorder x scaffold).Perm x ∧
      sortAsc (rank_reorder x scaffold) = sortAsc x :=
  ⟨by rw [length_rank_reorder, hlen], rank_reorder_perm x scaffold hlen,
    sortAsc_eq_of_perm (rank_reorder_perm x scaffold hlen)⟩

/-- Witness for claim C1 at x = [3,1,2], scaffold = [10,30,20]. -/
theorem rank_reorder_length_perm_example :
    (([3, 1, 2] : List ℚ).length = ([10, 30, 20] : List ℚ).length) ∧
      ((rank_reorder ([3, 1, 2] : List ℚ) ([10, 30, 20] : List ℚ)).length =
          ([3, 1, 2] : List ℚ).length ∧
        (rank_reorder ([3, 1, 2] : List ℚ) ([10, 30, 20] : List ℚ)).Perm [3, 1, 2] ∧
        sortAsc (rank_reorder ([3, 1, 2] : List ℚ) ([10, 30, 20] : List ℚ)) =
          sortAsc [3, 1, 2]) :=
  ⟨rfl, rank_reorder_length_perm ([3, 1, 2] : List ℚ) ([10, 30, 20] : List ℚ) rfl⟩

/- Counting machinery: the position of an element in a sorted
   duplicate-free list equals the number of elements strictly below
   it. -/

lemma default_rat_eq_zero : (default : ℚ) = 0 := rfl

lemma default_nat_eq_zero : (default : ℕ) = 0 := rfl

lemma countP_lt_of_mem {α : Type} (p q : α → Bool) (l : List α)
    (h : ∀ x ∈ l, p x = true → q x = true) (a : α) (ha : a ∈ l) (hqa : q a = true)
    (hpa : p a = false) : l.countP p < l.countP q := by
  induction l with
  | nil => cases ha
  | cons b t ih =>
    rw [List.countP_cons, List.countP_cons]
    rcases List.mem_cons.mp ha with rfl | hat
    · have hle := List.countP_mono_left (l := t) (p := p) (q := q)
        (fun x hx => h x (List.mem_cons_of_mem _ hx))
      simp [hpa, hqa]
      omega
    · have hlt := ih (fun x hx => h x (List.mem_cons_of_mem _ hx)) hat
      have hb : (if p b then 1 else 0) ≤ (if q b then 1 else 0) := by
        by_cases hpb : p b = true
        · simp [hpb, h b (List.mem_cons_self b t) hpb]
        · simp [hpb]
      omega

lemma countP_below_sorted {α : Type} [DecidableEq α] (r : α → α → Prop) [DecidableRel r]
    (hanti : ∀ a b, r a b → r b a → a = b) {s : List α} (hs : List.Sorted r s)
    (hnd : s.Nodup) (k : ℕ) (hk : k < s.length) :
    s.countP (fun a => decide (r a (s.get ⟨k, hk⟩) ∧ a ≠ s.get ⟨k, hk⟩)) = k := by
  have hps : List.Pairwise r s := hs
  set p : α → Bool := fun a => decide (r a (s.get ⟨k, hk⟩) ∧ a ≠ s.get ⟨k, hk⟩) with hp
  have htake : (s.take k).countP p = k := by
    have hall : ∀ a ∈ s.take k, p a = true := by
      intro a hmem
      obtain ⟨i, hi, hia⟩ := List.mem_iff_getElem.mp hmem
      have hik : i < k := by
        have := hi
        rw [List.length_take] at this
        omega
      have his : i < s.length := lt_trans hik hk
      have hval : a = s[i] := by rw [← hia, List.getElem_take]
      have hrel : r s[i] s[k] :=
        (List.pairwise_iff_getElem.mp hps) i k his hk hik
      have hne : s[i] ≠ s[k] := by
        intro he
        exact absurd (hnd.getElem_inj_iff.mp he) (Nat.ne_of_lt hik)
      rw [hp, hval]
      simp only [decide_eq_true_eq]
      exact ⟨hrel, hne⟩
    rw [List.countP_eq_length.mpr hall, List.length_take]
    omega
  have hdrop : (s.drop k).countP p = 0 := by
    rw [List.countP_eq_zero]
    intro a hmem
    obtain ⟨i, hi, hia⟩ := List.mem_iff_getElem.mp hmem
    have hklen : k + i < s.length := by
      have := hi
      rw [List.length_drop] at this
      omega
    have hval : a = s[k + i] := by rw [← hia, List.getElem_drop]
    rcases Nat.eq_zero_or_pos i with rfl | hipos
    · rw [hp, hval]
      simp only [decide_eq_true_eq, not_and, not_not]
      intro _
      simp
    · rw [hp, hval]
      simp only [decide_eq_true_eq, not_and, not_not]
      intro hrel
      have hlt : k < k + i := by omega
      have hrel2 : r s[k] s[k + i] :=
        (List.pairwise_iff_getElem.mp hps) k (k + i) hk hklen hlt
      have heq : s[k + i] = s[k] := hanti _ _ hrel hrel2
      have : k + i = k := hnd.getElem_inj_iff.mp heq
      omega
  calc s.countP p = (s.take k ++ s.drop k).countP p := by rw [List.take_append_drop]
    _ = (s.take k).countP p + (s.drop k).countP p := List.countP_append _ _ _
    _ = k := by rw [htake, hdrop]; omega

lemma argsort_count_below {α : Type} [LinearOrder α] [Inhabited α] (l : List α) (k : ℕ)
    (hk : k < (argsort l).length) :
    (List.range l.length).countP
      (fun a => decide (argsortRel l a ((argsort l).get ⟨k, hk⟩) ∧
        a ≠ (argsort l).get ⟨k, hk⟩)) = k := by
  rw [← (argsort_perm_range l).countP_eq]
  exact countP_below_sorted (argsortRel l) (fun a b h1 h2 => argsortRel_antisymm l h1 h2)
    (sorted_argsort l) (argsort_nodup l) k hk

lemma nodup_getD_inj {α : Type} [Inhabited α] {l : List α} (hnd : l.Nodup) {a b : ℕ}
    (ha : a < l.length) (hb : b < l.length) :
    l.getD a default = l.getD b default ↔ a = b := by
  rw [List.getD_eq_getElem _ _ ha, List.getD_eq_getElem _ _ hb]
  exact hnd.getElem_inj_iff

lemma argsortRel_strict_iff {α : Type} [LinearOrder α] [Inhabited α] {l : List α}
    (hnd : l.Nodup) {a p : ℕ} (ha : a < l.length) (hp : p < l.length) :
    (argsortRel l a p ∧ a ≠ p) ↔ l.getD a default < l.getD p default := by
  constructor
  · rintro ⟨h1 | ⟨he, _⟩, hne⟩
    · exact h1
    · exact absurd ((nodup_getD_inj hnd ha hp).mp he) hne
  · intro h
    refine ⟨Or.inl h, ?_⟩
    rintro rfl
    exact lt_irrefl _ h

lemma countP_range_getD {α : Type} [Inhabited α] (l : List α) (pred : α → Bool) :
    (List.range l.length).countP (fun a => pred (l.getD a default)) = l.countP pred := by
  have h := List.countP_map pred (fun i => l.getD i default) (List.range l.length)
  rw [map_getD_range] at h
  exact h.symm

lemma rank_argsort_getD {α : Type} [LinearOrder α] [Inhabited α] {l : List α}
    (hnd : l.Nodup) (k : ℕ) (hk : k < l.length) :
    rankOf l ((argsort l).getD k default) = k := by
  have hk2 : k < (argsort l).length := by rw [length_argsort]; exact hk
  have hq : (argsort l).getD k default = (argsort l).get ⟨k, hk2⟩ := by
    rw [List.getD_eq_getElem _ _ hk2]
    rfl
  rw [hq]
  set q := (argsort l).get ⟨k, hk2⟩ with hqdef
  have hqmem : q ∈ argsort l := by rw [hqdef]; exact List.get_mem _ _ _
  have hqlt : q < l.length := mem_argsort_lt l hqmem
  have h1 := argsort_count_below l k hk2
  have h2 : (List.range l.length).countP
      (fun a => decide (argsortRel l a q ∧ a ≠ q)) =
      (List.range l.length).countP (fun a => decide (l.getD a default < l.getD q default)) := by
    apply List.countP_congr
    intro a hain
    have halt : a < l.length := List.mem_range.mp hain
    simp only [decide_eq_true_eq]
    exact argsortRel_strict_iff hnd halt hqlt
  have h3 := countP_range_getD l (fun v => decide (v < l.getD q default))
  rw [rankOf, ← h3, ← h2, h1]

lemma countP_range_lt_id (n v : ℕ) (h : v ≤ n) :
    (List.range n).countP (fun a => decide (a < v)) = v := by
  induction n with
  | zero =>
    have hv : v = 0 := Nat.le_zero.mp h
    subst hv
    simp
  | succ m ih =>
    rw [List.range_succ, List.countP_append]
    rcases Nat.lt_or_ge v (m + 1) with hv | hv
    · have hvm : v ≤ m := Nat.lt_succ_iff.mp hv
      rw [ih hvm]
      simp [List.countP_cons, Nat.not_lt.mpr hvm]
    · have hveq : v = m + 1 := le_antisymm h hv
      subst hveq
      have hall : ∀ a ∈ List.range m, decide (a < m + 1) = true := by
        intro a hain
        simp only [decide_eq_true_eq]
        have := List.mem_range.mp hain
        omega
      rw [List.countP_eq_length.mpr hall, List.length_range]
      simp [List.countP_cons]

lemma argsort_inverse_of_perm_range {n : ℕ} {t : List ℕ} (ht : t.Perm (List.range n))
    {p : ℕ} (hp : p < n) : t.getD ((argsort t).getD p default) default = p := by
  have htlen : t.length = n := by simpa using ht.length_eq
  have htnd : t.Nodup := ht.nodup_iff.mpr (List.nodup_range n)
  have hp2 : p < (argsort t).length := by rw [length_argsort, htlen]; exact hp
  have hq : (argsort t).getD p default = (argsort t).get ⟨p, hp2⟩ := by
    rw [List.getD_eq_getElem _ _ hp2]
    rfl
  rw [hq]
  set q := (argsort t).get ⟨p, hp2⟩ with hqdef
  have hqmem : q ∈ argsort t := by rw [hqdef]; exact List.get_mem _ _ _
  have hqlt : q < t.length := mem_argsort_lt t hqmem
  set v := t.getD q default with hvdef
  have hvmem : v ∈ t := by
    rw [hvdef, List.getD_eq_getElem _ _ hqlt]
    exact List.getElem_mem _
  have hvlt : v < n := List.mem_range.mp (ht.mem_iff.mp hvmem)
  have h1 := argsort_count_below t p hp2
  have h2 : (List.range t.length).countP
      (fun a => decide (argsortRel t a q ∧ a ≠ q)) =
      (List.range t.length).countP (fun a => decide (t.getD a default < v)) := by
    apply List.countP_congr
    intro a hain
    have halt : a < t.length := List.mem_range.mp hain
    simp only [decide_eq_true_eq]
    rw [hvdef]
    exact argsortRel_strict_iff htnd halt hqlt
  have h3 := countP_range_getD t (fun w => decide (w < v))
  have h4 : t.countP (fun w => decide (w < v)) =
      (List.range n).countP (fun w => decide (w < v)) := ht.countP_eq _
  have h5 := countP_range_lt_id n v (le_of_lt hvlt)
  rw [h2, h3, h4, h5] at h1
  exact h1

lemma argsort_argsort_getD {α : Type} [LinearOrder α] [Inhabited α] {l : List α}
    (hnd : l.Nodup) {p : ℕ} (hp : p < l.length) :
    (argsort (argsort l)).getD p default = rankOf l p := by
  have ht : (argsort l).Perm (List.range l.length) := argsort_perm_range l
  set k := (argsort (argsort l)).getD p default with hkdef
  have hinv : (argsort l).getD k default = p := by
    rw [hkdef]
    exact argsort_inverse_of_perm_range ht hp
  have hklt : k < l.length := by
    have hp2 : p < (argsort (argsort l)).length := by
      rw [length_argsort, length_argsort]
      exact hp
    have hkmem : k ∈ argsort (argsort l) := by
      rw [hkdef, List.getD_eq_getElem _ _ hp2]
      exact List.getElem_mem _
    have := mem_argsort_lt (argsort l) hkmem
    rwa [length_argsort] at this
  have hrank := rank_argsort_getD hnd k hklt
  rw [hinv] at hrank
  exact hrank.symm

/- The pointwise description of rank_reorder: position p of the output
   receives the entry of the sorted x at the rank of scaffold[p]. -/

lemma rank_reorder_getD {α β : Type} [LinearOrder α] [Inhabited α] [LinearOrder β]
    [Inhabited β] (x : List α) {scaffold : List β} (hnd : scaffold.Nodup) {p : ℕ}
    (hp : p < scaffold.length) :
    (rank_reorder x scaffold).getD p default =
      (sortAsc x).getD (rankOf scaffold p) default := by
  have hp2 : p < (argsort (argsort scaffold)).length := by
    rw [length_argsort, length_argsort]
    exact hp
  rw [rank_reorder, indexD,
    List.getD_eq_getElem _ _ (by rw [List.length_map]; exact hp2), List.getElem_map]
  congr 1
  have h := argsort_argsort_getD hnd hp
  rw [List.getD_eq_getElem _ _ hp2] at h
  exact h

lemma sorted_nodup_getD_lt_iff {α : Type} [LinearOrder α] [Inhabited α] {l : List α}
    (hs : List.Sorted (fun a b : α => a ≤ b) l) (hnd : l.Nodup) {a b : ℕ}
    (ha : a < l.length) (hb : b < l.length) :
    l.getD a default < l.getD b default ↔ a < b := by
  have hpl : List.Pairwise (fun u v : α => u < v) l := by
    have h2 : List.Pairwise (fun u v : α => u ≠ v) l := hnd
    exact (List.Pairwise.and hs h2).imp (fun h => lt_of_le_of_ne h.1 h.2)
  constructor
  · intro h
    by_contra hab
    push_neg at hab
    rcases eq_or_lt_of_le hab with heq | hba
    · subst heq
      exact lt_irrefl _ h
    · have hrel := (List.pairwise_iff_getElem.mp hpl) b a hb ha hba
      rw [List.getD_eq_getElem _ _ ha, List.getD_eq_getElem _ _ hb] at h
      exact absurd h (not_lt.mpr (le_of_lt hrel))
  · intro h
    have hrel := (List.pairwise_iff_getElem.mp hpl) a b ha hb h
    rw [List.getD_eq_getElem _ _ ha, List.getD_eq_getElem _ _ hb]
    exact hrel

lemma rankOf_strict_mono {α : Type} [LinearOrder α] [Inhabited α] {l : List α}
    {a b : ℕ} (ha : a < l.length) (hv : l.getD a default < l.getD b default) :
    rankOf l a < rankOf l b := by
  apply countP_lt_of_mem _ _ _ ?_ (l.getD a default) ?_ ?_ ?_
  · intro w _ hpw
    simp only [decide_eq_true_eq] at hpw ⊢
    exact hpw.trans hv
  · rw [List.getD_eq_getElem _ _ ha]
    exact List.getElem_mem _
  · simp only [decide_eq_true_eq]
    exact hv
  · simp

lemma rankOf_lt_iff {α : Type} [LinearOrder α] [Inhabited α] {l : List α}
    (hnd : l.Nodup) {a b : ℕ} (ha : a < l.length) (hb : b < l.length) :
    rankOf l a < rankOf l b ↔ l.getD a default < l.getD b default := by
  constructor
  · intro h
    rcases lt_trichotomy (l.getD a default) (l.getD b default) with hv | hv | hv
    · exact hv
    · exfalso
      have heq : rankOf l a = rankOf l b := by rw [rankOf, rankOf, hv]
      omega
    · have := rankOf_strict_mono hb hv
      omega
  · exact rankOf_strict_mono ha

lemma rankOf_inj {α : Type} [LinearOrder α] [Inhabited α] {l : List α}
    (hnd : l.Nodup) {a b : ℕ} (ha : a < l.length) (hb : b < l.length) :
    rankOf l a = rankOf l b ↔ a = b := by
  constructor
  · intro h
    rcases lt_trichotomy (l.getD a default) (l.getD b default) with hv | hv | hv
    · have := rankOf_strict_mono ha hv
      omega
    · exact (nodup_getD_inj hnd ha hb).mp hv
    · have := rankOf_strict_mono hb hv
      omega
  · rintro rfl
    rfl

lemma rankOf_lt_length {α : Type} [LinearOrder α] [Inhabited α] (l : List α) {p : ℕ}
    (hp : p < l.length) : rankOf l p < l.length := by
  have hmem : l.getD p default ∈ l := by
    rw [List.getD_eq_getElem _ _ hp]
    exact List.getElem_mem _
  have hne : decide (l.getD p default < l.getD p default) = false := by simp
  have h := countP_lt_of_mem (fun v => decide (v < l.getD p default)) (fun _ => true) l
    (fun x _ _ => rfl) (l.getD p default) hmem rfl hne
  rw [List.countP_true] at h
  exact h

lemma argsort_rank_reorder_eq {α β : Type} [LinearOrder α] [Inhabited α] [LinearOrder β]
    [Inhabited β] {x : List α} {scaffold : List β} (hlen : x.length = scaffold.length)
    (hndx : x.Nodup) (hnds : scaffold.Nodup) :
    argsort (rank_reorder x scaffold) = argsort scaffold := by
  set out := rank_reorder x scaffold with hout
  have hlenout : out.length = scaffold.length := length_rank_reorder x scaffold
  have hsx_nodup : (sortAsc x).Nodup := (sortAsc_perm x).nodup_iff.mpr hndx
  have hiff : ∀ a b : ℕ, a < scaffold.length → b < scaffold.length →
      (argsortRel out a b ↔ argsortRel scaffold a b) := by
    intro a b ha hb
    have hralt : rankOf scaffold a < (sortAsc x).length := by
      rw [length_sortAsc, hlen]
      exact rankOf_lt_length scaffold ha
    have hrblt : rankOf scaffold b < (sortAsc x).length := by
      rw [length_sortAsc, hlen]
      exact rankOf_lt_length scaffold hb
    have houta : out.getD a default = (sortAsc x).getD (rankOf scaffold a) default :=
      rank_reorder_getD x hnds ha
    have houtb : out.getD b default = (sortAsc x).getD (rankOf scaffold b) default :=
      rank_reorder_getD x hnds hb
    have hlt : out.getD a default < out.getD b default ↔
        scaffold.getD a default < scaffold.getD b default := by
      rw [houta, houtb, sorted_nodup_getD_lt_iff (sortAsc_sorted x) hsx_nodup hralt hrblt,
        rankOf_lt_iff hnds ha hb]
    have heq : (out.getD a default = out.getD b default) ↔
        (scaffold.getD a default = scaffold.getD b default) := by
      rw [houta, houtb, nodup_getD_inj hsx_nodup hralt hrblt, rankOf_inj hnds ha hb,
        nodup_getD_inj hnds ha hb]
    simp only [argsortRel]
    rw [hlt, heq]
  have hperm : (argsort out).Perm (argsort scaffold) := by
    have h1 := argsort_perm_range out
    have h2 := argsort_perm_range scaffold
    rw [hlenout] at h1
    exact h1.trans h2.symm
  haveI : IsAntisymm ℕ (argsortRel out) := ⟨fun a b => argsortRel_antisymm out⟩
  apply List.eq_of_perm_of_sorted hperm (sorted_argsort out)
  apply List.Pairwise.imp_of_mem ?_ (sorted_argsort scaffold)
  intro a b hma hmb hab
  exact (hiff a b (mem_argsort_lt _ hma) (mem_argsort_lt _ hmb)).mpr hab

/-- Claim C2, corrected: for equal-length x and scaffold with scaffold
free of duplicate values, the output satisfies
output[p] = sorted(x)[rank of scaffold[p] among scaffold] at every
position p; the further clause that argsort of the output equals
argsort of scaffold holds when x is additionally free of duplicate
values (it fails for tied x, see the counterexample). -/
theorem rank_reorder_rank_formula (x scaffold : List ℚ)
    (hlen : x.length = scaffold.length) (hnd : scaffold.Nodup) :
    (∀ p, p < scaffold.length →
      (rank_reorder x scaffold).getD p 0 = (sortAsc x).getD (rankOf scaffold p) 0) ∧
    (x.Nodup → argsort (rank_reorder x scaffold) = argsort scaffold) := by
  constructor
  · intro p hp
    have h := rank_reorder_getD x hnd hp
    rwa [default_rat_eq_zero] at h
  · intro hndx
    exact argsort_rank_reorder_eq hlen hndx hnd

/-- Claim C2 counterexample: x = [1,1] and scaffold = [2,1] have equal
length and the scaffold has no ties, yet argsort of the rank_reorder
output differs from argsort of the scaffold, because x has tied values:
the output is [1,1], whose stable argsort is [0,1], while argsort of
the scaffold is [1,0]. -/
theorem rank_reorder_argsort_tie_mismatch :
    ([2, 1] : List ℚ).Nodup ∧ ([1, 1] : List ℚ).length = ([2, 1] : List ℚ).length ∧
      argsort (rank_reorder ([1, 1] : List ℚ) ([2, 1] : List ℚ)) ≠
        argsort ([2, 1] : List ℚ) :=
  ⟨by decide, rfl, by decide⟩

/-- Witness for the corrected claim C2 at x = [3,1,2],
scaffold = [10,30,20], together with the concrete evaluation
rank_reorder [3,1,2] [10,30,20] = [1,3,2] of the spec example. -/
theorem rank_reorder_rank_formula_example :
    ([10, 30, 20] : List ℚ).Nodup ∧
      ((∀ p, p < ([10, 30, 20] : List ℚ).length →
          (rank_reorder ([3, 1, 2] : List ℚ) ([10, 30, 20] : List ℚ)).getD p 0 =
            (sortAsc ([3, 1, 2] : List ℚ)).getD (rankOf ([10, 30, 20] : List ℚ) p) 0) ∧
        (([3, 1, 2] : List ℚ).Nodup →
          argsort (rank_reorder ([3, 1, 2] : List ℚ) ([10, 30, 20] : List ℚ)) =
            argsort ([10, 30, 20] : List ℚ))) ∧
      rank_reorder ([3, 1, 2] : List ℚ) ([10, 30, 20] : List ℚ) = [1, 3, 2] :=
  ⟨by decide, rank_reorder_rank_formula _ _ rfl (by decide), by decide⟩

/- Iteration structure of strength_correct. -/

lemma symmAvg_symm {n : ℕ} (M : Mat n) (i j : Fin n) : symmAvg M i j = symmAvg M j i := by
  simp [symmAvg, add_comm]

lemma strength_correct_zero {n : ℕ} (W : Mat n) (ss : Fin n → ℚ) :
    strength_correct W ss 0 = sc_init W ss := rfl

lemma strength_correct_succ {n : ℕ} (W : Mat n) (ss : Fin n → ℚ) (k : ℕ) :
    strength_correct W ss (k + 1) = sc_iter W ss (strength_correct W ss k) := by
  rw [strength_correct, strength_correct, Function.iterate_succ_apply']

lemma strength_correct_of_fixed {n : ℕ} {W : Mat n} {ss : Fin n → ℚ} {M1 : Mat n}
    (nreps : ℕ) (h1 : 1 ≤ nreps) (hinit : sc_iter W ss (sc_init W ss) = M1)
    (hfix : sc_iter W ss M1 = M1) : strength_correct W ss nreps = M1 := by
  obtain ⟨m, rfl⟩ : ∃ m, nreps = m + 1 := ⟨nreps - 1, by omega⟩
  rw [strength_correct, Function.iterate_succ_apply, hinit]
  exact Function.iterate_fixed hfix m

/- Concrete evaluations used by the counterexamples and witnesses. -/

lemma sc_iter_Wdir2_init : sc_iter Wdir2 ssOnes2 (sc_init Wdir2 ssOnes2) = Mfix2 := by
  funext i j
  fin_cases i <;> fin_cases j <;>
    norm_num [sc_iter, sc_init, scaleCols, zeroDiscCols, symmAvg, colsum,
      Fin.sum_univ_succ, Wdir2, ssOnes2, Mfix2]

lemma sc_iter_Wdir2_fix : sc_iter Wdir2 ssOnes2 Mfix2 = Mfix2 := by
  funext i j
  fin_cases i <;> fin_cases j <;>
    norm_num [sc_iter, scaleCols, zeroDiscCols, symmAvg, colsum,
      Fin.sum_univ_succ, Wdir2, ssOnes2, Mfix2]

lemma strength_correct_Wdir2_eval : strength_correct Wdir2 ssOnes2 9 = Mfix2 :=
  strength_correct_of_fixed 9 (by omega) sc_iter_Wdir2_init sc_iter_Wdir2_fix

lemma sc_init_Wex3 : sc_init Wex3 ssEx3 = Wex3 := by
  funext i j
  fin_cases i <;> fin_cases j <;>
    norm_num [sc_init, scaleCols, zeroDiscCols, colsum, Fin.sum_univ_succ, Wex3, ssEx3]

lemma sc_iter_Wex3_fix : sc_iter Wex3 ssEx3 Wex3 = Wex3 := by
  funext i j
  fin_cases i <;> fin_cases j <;>
    norm_num [sc_iter, scaleCols, zeroDiscCols, symmAvg, colsum,
      Fin.sum_univ_succ, Wex3, ssEx3]

lemma strength_correct_Wex3_eval : strength_correct Wex3 ssEx3 9 = Wex3 :=
  strength_correct_of_fixed 9 (by omega) (by rw [sc_init_Wex3, sc_iter_Wex3_fix])
    sc_iter_Wex3_fix

/-- Claim C5: for every square W, every target ss and every nreps ≥ 1,
the matrix returned by strength_correct is exactly symmetric, because
the last operation of every iteration averages the matrix with its
transpose. -/
theorem strength_correct_symmetric_output {n : ℕ} (W : Mat n) (ss : Fin n → ℚ)
    (nreps : ℕ) (h : 1 ≤ nreps) :
    ∀ i j, strength_correct W ss nreps i j = strength_correct W ss nreps j i := by
  obtain ⟨m, rfl⟩ : ∃ m, nreps = m + 1 := ⟨nreps - 1, by omega⟩
  intro i j
  rw [strength_correct_succ]
  exact symmAvg_symm _ i j

/-- Witness for claim C5 at W = [[0,1],[0,0]], ss = [1,1], nreps = 9. -/
theorem strength_correct_symmetric_output_example :
    1 ≤ 9 ∧ ∀ i j : Fin 2, strength_correct Wdir2 ssOnes2 9 i j =
      strength_correct Wdir2 ssOnes2 9 j i :=
  ⟨by omega, strength_correct_symmetric_output Wdir2 ssOnes2 9 (by omega)⟩

/-- Claim C3 counterexample: the directed matrix W = [[0,1],[0,0]] has a
zero column sum at node 0, yet with targets [1,1] the output of
strength_correct has column 0 equal to [0, 1/2]: the symmetrization at
the end of each iteration leaks the nonzero row 0 of W back into
column 0, so the column of a zero-in-strength node is not all zeros. -/
theorem strength_correct_colsum_zero_leak :
    colsum Wdir2 0 = 0 ∧ strength_correct Wdir2 ssOnes2 9 1 0 = 1 / 2 ∧
      strength_correct Wdir2 ssOnes2 9 1 0 ≠ 0 := by
  refine ⟨?_, ?_, ?_⟩
  · norm_num [colsum, Fin.sum_univ_succ, Wdir2]
  · rw [strength_correct_Wdir2_eval]
    norm_num [Mfix2]
  · rw [strength_correct_Wdir2_eval]
    norm_num [Mfix2]

/-- Claim C4 counterexample: for the directed matrix W = [[0,1],[0,0]]
with targets [1,1], strength_correct creates an edge: the output entry
at position (1,0) is 1/2 although W is zero there, so the output does
not have the same zero/nonzero topology as W. -/
theorem strength_correct_topology_creates_edge :
    Wdir2 1 0 = 0 ∧ strength_correct Wdir2 ssOnes2 9 1 0 = 1 / 2 ∧
      strength_correct Wdir2 ssOnes2 9 1 0 ≠ 0 := by
  refine ⟨by decide, ?_, ?_⟩
  · rw [strength_correct_Wdir2_eval]
    norm_num [Mfix2]
  · rw [strength_correct_Wdir2_eval]
    norm_num [Mfix2]

/- A node whose row and column are entirely zero stays zero through
   every stage of strength_correct. -/

lemma scaleCols_rowcol_zero {n : ℕ} (ss : Fin n → ℚ) (M : Mat n) (j0 : Fin n)
    (hcol : ∀ i, M i j0 = 0) (hrow : ∀ i, M j0 i = 0) :
    (∀ i, scaleCols ss M i j0 = 0) ∧ (∀ i, scaleCols ss M j0 i = 0) := by
  refine ⟨fun i => ?_, fun i => ?_⟩
  · rw [scaleCols, hcol i, zero_mul]
  · rw [scaleCols, hrow i, zero_mul]

lemma zeroDiscCols_rowcol_zero {n : ℕ} (W M : Mat n) (j0 : Fin n)
    (hcol : ∀ i, M i j0 = 0) (hrow : ∀ i, M j0 i = 0) :
    (∀ i, zeroDiscCols W M i j0 = 0) ∧ (∀ i, zeroDiscCols W M j0 i = 0) := by
  refine ⟨fun i => ?_, fun i => ?_⟩
  · unfold zeroDiscCols
    split
    · rfl
    · exact hcol i
  · unfold zeroDiscCols
    split
    · rfl
    · exact hrow i

lemma symmAvg_rowcol_zero {n : ℕ} (M : Mat n) (j0 : Fin n)
    (hcol : ∀ i, M i j0 = 0) (hrow : ∀ i, M j0 i = 0) :
    (∀ i, symmAvg M i j0 = 0) ∧ (∀ i, symmAvg M j0 i = 0) := by
  refine ⟨fun i => ?_, fun i => ?_⟩ <;> simp [symmAvg, hcol i, hrow i]

lemma sc_iter_rowcol_zero {n : ℕ} (W : Mat n) (ss : Fin n → ℚ) (j0 : Fin n) (M : Mat n)
    (hcol : ∀ i, M i j0 = 0) (hrow : ∀ i, M j0 i = 0) :
    (∀ i, sc_iter W ss M i j0 = 0) ∧ (∀ i, sc_iter W ss M j0 i = 0) := by
  have h1 := scaleCols_rowcol_zero ss M j0 hcol hrow
  have h2 := zeroDiscCols_rowcol_zero W _ j0 h1.1 h1.2
  exact symmAvg_rowcol_zero _ j0 h2.1 h2.2

lemma strength_correct_rowcol_zero {n : ℕ} (W : Mat n) (ss : Fin n → ℚ) (j0 : Fin n)
    (hcol : ∀ i, W i j0 = 0) (hrow : ∀ i, W j0 i = 0) (nreps : ℕ) :
    (∀ i, strength_correct W ss nreps i j0 = 0) ∧
      (∀ i, strength_correct W ss nreps j0 i = 0) := by
  induction nreps with
  | zero =>
    have h1 := scaleCols_rowcol_zero ss W j0 hcol hrow
    exact zeroDiscCols_rowcol_zero W _ j0 h1.1 h1.2
  | succ k ih =>
    rw [strength_correct_succ]
    exact sc_iter_rowcol_zero W ss j0 _ ih.1 ih.2

/- The same invariant through the surrogate constructions. -/

lemma assignMasked_of_mask_false {n : ℕ} (M : Mat n) (mask : Fin n → Fin n → Bool)
    (vals : List ℚ) {i j : Fin n} (h : mask i j = false) :
    assignMasked M mask vals i j = M i j := by
  simp [assignMasked, h]

lemma surr_W1_rowcol_zero {n : ℕ} (W : Mat n) (j0 : Fin n)
    (hcol : ∀ i, W i j0 = 0) (hrow : ∀ i, W j0 i = 0) :
    (∀ i, surr_W1 W i j0 = 0) ∧ (∀ i, surr_W1 W j0 i = 0) := by
  unfold surr_W1
  split <;> refine ⟨fun i => ?_, fun i => ?_⟩ <;>
    simp [triu, fill_diagonal, hcol i, hrow i]

lemma randomsurr_rowcol_zero {n : ℕ} (W : Mat n) (shuff : List ℕ) (j0 : Fin n)
    (hcol : ∀ i, W i j0 = 0) (hrow : ∀ i, W j0 i = 0) :
    (∀ i, (randomsurr W shuff).1 i j0 = 0) ∧ (∀ i, (randomsurr W shuff).1 j0 i = 0) := by
  have hW1 := surr_W1_rowcol_zero W j0 hcol hrow
  have hmc : ∀ i, nz_mask (surr_W1 W) i j0 = false := fun i => by
    simp [nz_mask, hW1.1 i]
  have hmr : ∀ i, nz_mask (surr_W1 W) j0 i = false := fun i => by
    simp [nz_mask, hW1.2 i]
  have hWrsc : ∀ i, randomsurr_Wrs (surr_W1 W) shuff i j0 = 0 := fun i => by
    rw [randomsurr_Wrs, assignMasked_of_mask_false _ _ _ (hmc i)]
  have hWrsr : ∀ i, randomsurr_Wrs (surr_W1 W) shuff j0 i = 0 := fun i => by
    rw [randomsurr_Wrs, assignMasked_of_mask_false _ _ _ (hmr i)]
  have hW2c : ∀ i, (if directedFlag W = 0 then symmetrizeAdd (randomsurr_Wrs (surr_W1 W) shuff)
      else randomsurr_Wrs (surr_W1 W) shuff) i j0 = 0 := by
    intro i
    split <;> simp [symmetrizeAdd, hWrsc i, hWrsr i, hWrsc, hWrsr]
  have hW2r : ∀ i, (if directedFlag W = 0 then symmetrizeAdd (randomsurr_Wrs (surr_W1 W) shuff)
      else randomsurr_Wrs (surr_W1 W) shuff) j0 i = 0 := by
    intro i
    split <;> simp [symmetrizeAdd, hWrsc i, hWrsr i, hWrsc, hWrsr]
  simp only [randomsurr]
  exact strength_correct_rowcol_zero _ _ j0 hW2c hW2r 9

lemma geom_mask_false_of_zero {n : ℕ} (W1 : Mat n) (D : Fin n → Fin n → Option ℚ)
    {i j : Fin n} (h : W1 i j = 0) : geom_mask W1 D i j = false := by
  simp [geom_mask, h]

lemma geomsurr_rowcol_zero {n : ℕ} (W : Mat n) (D : Fin n → Fin n → Option ℚ)
    (mnsurr : List ℚ) (j0 : Fin n) (hcol : ∀ i, W i j0 = 0) (hrow : ∀ i, W j0 i = 0) :
    (∀ i, (geomsurr W D mnsurr).1 i j0 = 0) ∧ (∀ i, (geomsurr W D mnsurr).1 j0 i = 0) := by
  have hW1 := surr_W1_rowcol_zero W j0 hcol hrow
  have hWwpc : ∀ i, geom_Wwp (surr_W1 W) D mnsurr i j0 = 0 := fun i => by
    rw [geom_Wwp, assignMasked_of_mask_false _ _ _ (geom_mask_false_of_zero _ D (hW1.1 i))]
  have hWwpr : ∀ i, geom_Wwp (surr_W1 W) D mnsurr j0 i = 0 := fun i => by
    rw [geom_Wwp, assignMasked_of_mask_false _ _ _ (geom_mask_false_of_zero _ D (hW1.2 i))]
  have hW2c : ∀ i, (if directedFlag W = 0 then symmetrizeAdd (geom_Wwp (surr_W1 W) D mnsurr)
      else geom_Wwp (surr_W1 W) D mnsurr) i j0 = 0 := by
    intro i
    split <;> simp [symmetrizeAdd, hWwpc i, hWwpr i]
  have hW2r : ∀ i, (if directedFlag W = 0 then symmetrizeAdd (geom_Wwp (surr_W1 W) D mnsurr)
      else geom_Wwp (surr_W1 W) D mnsurr) j0 i = 0 := by
    intro i
    split <;> simp [symmetrizeAdd, hWwpc i, hWwpr i]
  simp only [geomsurr]
  exact strength_correct_rowcol_zero _ _ j0 hW2c hW2r 9

/-- Claim C3, corrected: the claim as stated fails for a node whose
column sums to zero while its row is nonzero (see the counterexample);
the amended claim requires both the column and the row of node j0 in W
to be entirely zero, W to have nonnegative entries, and — for the
direct strength_correct call — the target to be positive at every
connected column.  Then column j0 of strength_correct is all zeros
regardless of the requested target strength ss j0 (which the positivity
hypothesis does not constrain, j0 being disconnected), and node j0
stays at zero strength in the outputs of randomsurr and geomsurr.  The
nonnegativity and target-positivity hypotheses confine the statement to
the regime where the exact-arithmetic model matches the floating-point
program: by strength_correct_nonneg_poscol, every divisor at a
connected column then stays positive, so the division-convention
x / 0 = 0 is exercised only at columns the program explicitly masks.
For the two surrogate calls no hypothesis on the target is needed,
because the targets they pass to strength_correct are column-sum
sequences of matrices with the same support, which are automatically
positive at connected columns: this is proved below in
randomsurr_inner_target_pos and geomsurr_inner_target_pos. -/
theorem disconnected_rowcol_zero_invariant {n : ℕ} (W : Mat n) (j0 : Fin n)
    (hnn : ∀ i j, 0 ≤ W i j) (hcol : ∀ i, W i j0 = 0) (hrow : ∀ i, W j0 i = 0) :
    (∀ ss : Fin n → ℚ, (∀ j, colsum W j ≠ 0 → 0 < ss j) →
      ∀ nreps, ∀ i, strength_correct W ss nreps i j0 = 0) ∧
      (∀ shuff : List ℕ, (∀ i, (randomsurr W shuff).1 i j0 = 0) ∧
        colsum (randomsurr W shuff).1 j0 = 0) ∧
      (∀ D : Fin n → Fin n → Option ℚ, ∀ mnsurr : List ℚ,
        (∀ i, (geomsurr W D mnsurr).1 i j0 = 0) ∧
          colsum (geomsurr W D mnsurr).1 j0 = 0) := by
  refine ⟨fun ss _ nreps => (strength_correct_rowcol_zero W ss j0 hcol hrow nreps).1,
    fun shuff => ?_, fun D mnsurr => ?_⟩
  · have h := randomsurr_rowcol_zero W shuff j0 hcol hrow
    exact ⟨h.1, Finset.sum_eq_zero (fun i _ => h.1 i)⟩
  · have h := geomsurr_rowcol_zero W D mnsurr j0 hcol hrow
    exact ⟨h.1, Finset.sum_eq_zero (fun i _ => h.1 i)⟩

/-- Witness for the corrected claim C3 at the spec example
W = [[0,2,0],[2,0,0],[0,0,0]] with node j0 = 2 and targets [2,2,0]
(positive at the connected columns 0 and 1, zero at the disconnected
column 2), together with the exact evaluation of the example: the
output equals W itself, so column 2 stays [0,0,0] and columns 0 and 1
have column sums exactly 2. -/
theorem disconnected_rowcol_zero_example :
    (∀ i j, (0 : ℚ) ≤ Wex3 i j) ∧ (∀ i, Wex3 i 2 = 0) ∧ (∀ i, Wex3 2 i = 0) ∧
      (∀ j, colsum Wex3 j ≠ 0 → 0 < ssEx3 j) ∧
      (∀ nreps, ∀ i, strength_correct Wex3 ssEx3 nreps i 2 = 0) ∧
      strength_correct Wex3 ssEx3 9 = Wex3 ∧
      colsum (strength_correct Wex3 ssEx3 9) 0 = 2 ∧
      colsum (strength_correct Wex3 ssEx3 9) 1 = 2 := by
  have hss : ∀ j, colsum Wex3 j ≠ 0 → 0 < ssEx3 j := by
    intro j hj
    fin_cases j
    · norm_num [ssEx3]
    · norm_num [ssEx3]
    · simp [colsum, Fin.sum_univ_succ, Wex3] at hj
  refine ⟨by decide, by decide, by decide, hss,
    (disconnected_rowcol_zero_invariant Wex3 2 (by decide) (by decide) (by decide)).1
      ssEx3 hss,
    strength_correct_Wex3_eval, ?_, ?_⟩ <;>
    rw [strength_correct_Wex3_eval] <;>
    norm_num [colsum, Fin.sum_univ_succ, Wex3]

/- Zero/nonzero pattern preservation for symmetric nonnegative W with
   positive targets at connected nodes. -/

lemma colsum_pos_of_entry {n : ℕ} {M : Mat n} {j : Fin n} (hnn : ∀ i, 0 ≤ M i j)
    (i0 : Fin n) (hpos : 0 < M i0 j) : 0 < colsum M j :=
  Finset.sum_pos' (fun i _ => hnn i) ⟨i0, Finset.mem_univ _, hpos⟩

lemma scaleCols_pattern {n : ℕ} {W M : Mat n} {ss : Fin n → ℚ}
    (hnn : ∀ i j, 0 ≤ W i j) (hss : ∀ j, colsum W j ≠ 0 → 0 < ss j)
    (hM : ∀ i j, (W i j = 0 → M i j = 0) ∧ (W i j ≠ 0 → 0 < M i j)) :
    ∀ i j, (W i j = 0 → scaleCols ss M i j = 0) ∧
      (W i j ≠ 0 → 0 < scaleCols ss M i j) := by
  intro i j
  constructor
  · intro h0
    rw [scaleCols, (hM i j).1 h0, zero_mul]
  · intro hne
    have hMij : 0 < M i j := (hM i j).2 hne
    have hMnn : ∀ i2, 0 ≤ M i2 j := fun i2 => by
      rcases eq_or_ne (W i2 j) 0 with h | h
      · rw [(hM i2 j).1 h]
      · exact le_of_lt ((hM i2 j).2 h)
    have hcsM : 0 < colsum M j := colsum_pos_of_entry hMnn i hMij
    have hcsW : colsum W j ≠ 0 :=
      ne_of_gt (colsum_pos_of_entry (fun i2 => hnn i2 j) i
        (lt_of_le_of_ne (hnn i j) (Ne.symm hne)))
    exact mul_pos hMij (div_pos (hss j hcsW) hcsM)

lemma zeroDiscCols_pattern {n : ℕ} {W M : Mat n} (hnn : ∀ i j, 0 ≤ W i j)
    (hM : ∀ i j, (W i j = 0 → M i j = 0) ∧ (W i j ≠ 0 → 0 < M i j)) :
    ∀ i j, (W i j = 0 → zeroDiscCols W M i j = 0) ∧
      (W i j ≠ 0 → 0 < zeroDiscCols W M i j) := by
  intro i j
  unfold zeroDiscCols
  split
  · rename_i hcs
    refine ⟨fun _ => rfl, fun hne => absurd ?_ hne⟩
    unfold colsum at hcs
    exact (Finset.sum_eq_zero_iff_of_nonneg (fun i2 _ => hnn i2 j)).mp hcs i
      (Finset.mem_univ i)
  · exact hM i j

lemma symmAvg_pattern {n : ℕ} {W M : Mat n} (hsym : ∀ i j, W i j = W j i)
    (hM : ∀ i j, (W i j = 0 → M i j = 0) ∧ (W i j ≠ 0 → 0 < M i j)) :
    ∀ i j, (W i j = 0 → symmAvg M i j = 0) ∧ (W i j ≠ 0 → 0 < symmAvg M i j) := by
  intro i j
  unfold symmAvg
  constructor
  · intro h0
    have hji : W j i = 0 := by rw [← hsym i j]; exact h0
    rw [(hM i j).1 h0, (hM j i).1 hji]
    norm_num
  · intro hne
    have hji : W j i ≠ 0 := by rw [← hsym i j]; exact hne
    have h1 := (hM i j).2 hne
    have h2 := (hM j i).2 hji
    linarith

lemma strength_correct_pattern {n : ℕ} {W : Mat n} {ss : Fin n → ℚ}
    (hsym : ∀ i j, W i j = W j i) (hnn : ∀ i j, 0 ≤ W i j)
    (hss : ∀ j, colsum W j ≠ 0 → 0 < ss j) (nreps : ℕ) :
    ∀ i j, (W i j = 0 → strength_correct W ss nreps i j = 0) ∧
      (W i j ≠ 0 → 0 < strength_correct W ss nreps i j) := by
  induction nreps with
  | zero =>
    have hW : ∀ i j, (W i j = 0 → W i j = 0) ∧ (W i j ≠ 0 → 0 < W i j) := fun i j =>
      ⟨id, fun h => lt_of_le_of_ne (hnn i j) (Ne.symm h)⟩
    exact zeroDiscCols_pattern hnn (scaleCols_pattern hnn hss hW)
  | succ k ih =>
    rw [strength_correct_succ]
    exact symmAvg_pattern hsym (zeroDiscCols_pattern hnn (scaleCols_pattern hnn hss ih))

/-- Claim C4, corrected: the claim as stated fails for directed W (the
symmetrization creates edges, see the counterexample) and for zero
targets at connected nodes; under the amended hypotheses that W is
symmetric with nonnegative entries and the target is positive at every
connected node, strength_correct returns a matrix with exactly the same
zero/nonzero topology as W. -/
theorem strength_correct_topology_symm {n : ℕ} (W : Mat n) (ss : Fin n → ℚ)
    (nreps : ℕ) (hsym : ∀ i j, W i j = W j i) (hnn : ∀ i j, 0 ≤ W i j)
    (hss : ∀ j, colsum W j ≠ 0 → 0 < ss j) :
    ∀ i j, strength_correct W ss nreps i j ≠ 0 ↔ W i j ≠ 0 := by
  intro i j
  have h := strength_correct_pattern hsym hnn hss nreps i j
  constructor
  · intro hne h0
    exact hne (h.1 h0)
  · intro hne
    exact ne_of_gt (h.2 hne)

/-- Witness for the corrected claim C4 at W = [[0,1],[1,0]],
ss = [1,1], nreps = 9. -/
theorem strength_correct_topology_symm_example :
    (∀ i j, Wsym2 i j = Wsym2 j i) ∧ (∀ i j, (0 : ℚ) ≤ Wsym2 i j) ∧
      (∀ j, colsum Wsym2 j ≠ 0 → 0 < ssOnes2 j) ∧
      (∀ i j, strength_correct Wsym2 ssOnes2 9 i j ≠ 0 ↔ Wsym2 i j ≠ 0) := by
  have hss : ∀ j, colsum Wsym2 j ≠ 0 → 0 < ssOnes2 j := by
    intro j _
    fin_cases j <;> norm_num [ssOnes2]
  exact ⟨by decide, by decide, hss,
    strength_correct_topology_symm Wsym2 ssOnes2 9 (by decide) (by decide) hss⟩

/- Nonnegativity and positive column sums at connected nodes, through
   every iteration: the divisors of strength_correct vanish only at
   disconnected columns. -/

lemma colsum_scaleCols {n : ℕ} (ss : Fin n → ℚ) (M : Mat n) (j : Fin n)
    (h : colsum M j ≠ 0) : colsum (scaleCols ss M) j = ss j := by
  unfold colsum scaleCols
  rw [← Finset.sum_mul, show (∑ i, M i j) = colsum M j from rfl, ← mul_div_assoc,
    mul_comm, mul_div_assoc, div_self h, mul_one]

lemma colsum_zeroDiscCols_of_ne {n : ℕ} (W M : Mat n) (j : Fin n)
    (h : colsum W j ≠ 0) : colsum (zeroDiscCols W M) j = colsum M j := by
  unfold colsum zeroDiscCols
  apply Finset.sum_congr rfl
  intro i _
  rw [if_neg h]

lemma colsum_symmAvg {n : ℕ} (M : Mat n) (j : Fin n) :
    colsum (symmAvg M) j = (colsum M j + ∑ i, M j i) / 2 := by
  unfold colsum symmAvg
  rw [← Finset.sum_div, Finset.sum_add_distrib]

lemma strength_correct_nonneg_poscol {n : ℕ} {W : Mat n} {ss : Fin n → ℚ}
    (hnn : ∀ i j, 0 ≤ W i j) (hss : ∀ j, colsum W j ≠ 0 → 0 < ss j) (k : ℕ) :
    (∀ i j, 0 ≤ strength_correct W ss k i j) ∧
      (∀ j, colsum W j ≠ 0 → 0 < colsum (strength_correct W ss k) j) := by
  induction k with
  | zero =>
    constructor
    · intro i j
      unfold strength_correct
      rw [Function.iterate_zero_apply]
      unfold sc_init zeroDiscCols
      split
      · exact le_refl 0
      · rename_i hcs
        have hcsW : 0 < colsum W j :=
          lt_of_le_of_ne (Finset.sum_nonneg (fun i2 _ => hnn i2 j)) (Ne.symm hcs)
        exact mul_nonneg (hnn i j) (div_nonneg (le_of_lt (hss j hcs)) (le_of_lt hcsW))
    · intro j hj
      unfold strength_correct
      rw [Function.iterate_zero_apply]
      unfold sc_init
      rw [colsum_zeroDiscCols_of_ne W _ j hj, colsum_scaleCols ss W j hj]
      exact hss j hj
  | succ m ih =>
    have hmid_nn : ∀ i j, 0 ≤ zeroDiscCols W (scaleCols ss (strength_correct W ss m)) i j := by
      intro i j
      unfold zeroDiscCols
      split
      · exact le_refl 0
      · rename_i hcs
        unfold scaleCols
        have hM := ih.2 j hcs
        exact mul_nonneg (ih.1 i j) (div_nonneg (le_of_lt (hss j hcs)) (le_of_lt hM))
    constructor
    · intro i j
      rw [strength_correct_succ]
      unfold sc_iter symmAvg
      have := hmid_nn i j
      have := hmid_nn j i
      positivity
    · intro j hj
      rw [strength_correct_succ]
      unfold sc_iter
      rw [colsum_symmAvg, colsum_zeroDiscCols_of_ne W _ j hj,
        colsum_scaleCols ss _ j (ne_of_gt (ih.2 j hj))]
      have h1 := hss j hj
      have h2 : (0 : ℚ) ≤ ∑ i, zeroDiscCols W (scaleCols ss (strength_correct W ss m)) j i :=
        Finset.sum_nonneg (fun i _ => hmid_nn j i)
      linarith

/-- Claim C6, corrected: the claim as stated fails when a connected
column has target strength zero, because that column is zeroed by the
scaling and its column sum is a zero divisor at the next iteration (see
the counterexample); under the amended hypotheses that W has
nonnegative entries and the target is positive at every connected node,
every division by a zero column sum in strength_correct occurs only at
disconnected columns of W, and immediately after each scaling the
disconnected columns are explicitly zeroed. -/
theorem sc_divisor_zero_only_disconnected {n : ℕ} (W : Mat n) (ss : Fin n → ℚ)
    (hnn : ∀ i j, 0 ≤ W i j) (hss : ∀ j, colsum W j ≠ 0 → 0 < ss j) :
    (∀ k j, sc_divisor W ss k j = 0 → colsum W j = 0) ∧
      (∀ k j i, colsum W j = 0 → sc_init W ss i j = 0 ∧
        zeroDiscCols W (scaleCols ss (strength_correct W ss k)) i j = 0) := by
  constructor
  · intro k j
    match k with
    | 0 => exact fun h => h
    | m + 1 =>
      intro h
      by_contra hne
      have := (strength_correct_nonneg_poscol hnn hss m).2 j hne
      rw [show sc_divisor W ss (m + 1) j = colsum (strength_correct W ss m) j from rfl] at h
      rw [h] at this
      exact lt_irrefl 0 this
  · intro k j i h
    constructor
    · unfold sc_init zeroDiscCols
      rw [if_pos h]
    · unfold zeroDiscCols
      rw [if_pos h]

/-- Witness for the corrected claim C6 at W = [[0,1],[1,0]],
ss = [1,1]. -/
theorem sc_divisor_zero_only_disconnected_example :
    (∀ i j, (0 : ℚ) ≤ Wsym2 i j) ∧ (∀ j, colsum Wsym2 j ≠ 0 → 0 < ssOnes2 j) ∧
      (∀ k j, sc_divisor Wsym2 ssOnes2 k j = 0 → colsum Wsym2 j = 0) := by
  have hss : ∀ j, colsum Wsym2 j ≠ 0 → 0 < ssOnes2 j := by
    intro j _
    fin_cases j <;> norm_num [ssOnes2]
  exact ⟨by decide, hss,
    (sc_divisor_zero_only_disconnected Wsym2 ssOnes2 (by decide) hss).1⟩

/-- Claim C6 counterexample: W = [[0,1],[1,0]] has no disconnected
column (both column sums are 1), yet with targets [0,1] the divisor of
the first loop iteration at column 0 is zero: the zero target wiped
column 0 during the initial scaling, so strength_correct divides by
zero at a connected column, contradicting the claim that divisions by
zero occur only at disconnected columns. -/
theorem sc_divisor_zero_at_connected :
    colsum Wsym2 0 ≠ 0 ∧ sc_divisor Wsym2 ssZero2 1 0 = 0 := by
  constructor
  · norm_num [colsum, Fin.sum_univ_succ, Wsym2]
  · show colsum (strength_correct Wsym2 ssZero2 0) 0 = 0
    rw [strength_correct_zero]
    norm_num [sc_init, zeroDiscCols, scaleCols, colsum, Fin.sum_univ_succ, Wsym2, ssZero2]

/- Commutation of indexD and rank_reorder with strictly monotone maps,
   and the exp/log collapse used by the embeddings of randomsurr and
   geomsurr. -/

lemma indexD_map {α β : Type} [Inhabited α] [Inhabited β] (f : α → β) (l : List α)
    (idx : List ℕ) (hidx : ∀ i ∈ idx, i < l.length) :
    indexD (l.map f) idx = (indexD l idx).map f := by
  unfold indexD
  rw [List.map_map]
  apply List.map_congr_left
  intro i hi
  have h := hidx i hi
  rw [List.getD_eq_getElem _ _ (by rw [List.length_map]; exact h), List.getElem_map,
    Function.comp_apply, List.getD_eq_getElem _ _ h]

lemma sortAsc_map_strictMono {α β : Type} [LinearOrder α] [LinearOrder β] {f : α → β}
    (hf : StrictMono f) (x : List α) : sortAsc (x.map f) = (sortAsc x).map f := by
  haveI : IsAntisymm β (fun a b : β => a ≤ b) := ⟨fun a b => le_antisymm⟩
  exact List.eq_of_perm_of_sorted ((sortAsc_perm _).trans ((sortAsc_perm x).map f).symm)
    (sortAsc_sorted _) (List.Pairwise.map f (fun a b hab => hf.monotone hab) (sortAsc_sorted x))

lemma rank_reorder_map_strictMono {α β γ : Type} [LinearOrder α] [Inhabited α]
    [LinearOrder β] [Inhabited β] [LinearOrder γ] [Inhabited γ] {f : α → β}
    (hf : StrictMono f) (x : List α) (scaffold : List γ)
    (hlen : x.length = scaffold.length) :
    rank_reorder (x.map f) scaffold = (rank_reorder x scaffold).map f := by
  unfold rank_reorder
  rw [sortAsc_map_strictMono hf x]
  apply indexD_map
  intro i hi
  rw [length_sortAsc, hlen]
  have h := mem_argsort_lt _ hi
  rwa [length_argsort] at h

lemma exp_log_indexD (w : List ℝ) (shuff : List ℕ) (hw : ∀ a ∈ w, 0 < a)
    (hs : ∀ i ∈ shuff, i < w.length) :
    (indexD (w.map Real.log) shuff).map Real.exp = indexD w shuff := by
  rw [indexD_map Real.log w shuff hs, List.map_map]
  have hmem : ∀ a ∈ indexD w shuff, a ∈ w := by
    intro a ha
    obtain ⟨i, hi, rfl⟩ := List.mem_map.mp ha
    rw [List.getD_eq_getElem _ _ (hs i hi)]
    exact List.getElem_mem _
  calc (indexD w shuff).map (Real.exp ∘ Real.log)
      = (indexD w shuff).map id :=
        List.map_congr_left (fun a ha => by
          simp only [Function.comp_apply, id_eq]
          exact Real.exp_log (hw a (hmem a ha)))
    _ = indexD w shuff := List.map_id _

lemma exp_log_rank_reorder (w : List ℝ) (scaffold : List ℝ) (hw : ∀ a ∈ w, 0 < a)
    (hlen : w.length = scaffold.length) :
    (rank_reorder (w.map Real.log) scaffold).map Real.exp = rank_reorder w scaffold := by
  have hlen2 : (w.map Real.log).length = scaffold.length := by
    rw [List.length_map]
    exact hlen
  rw [← rank_reorder_map_strictMono Real.exp_strictMono (w.map Real.log) scaffold hlen2]
  congr 1
  rw [List.map_map]
  calc w.map (Real.exp ∘ Real.log)
      = w.map id :=
        List.map_congr_left (fun a ha => by
          simp only [Function.comp_apply, id_eq]
          exact Real.exp_log (hw a ha))
    _ = w := List.map_id _

/- The directedness test. -/

lemma maxEntry_diff_eq_zero_iff {n : ℕ} (hn : 0 < n) (W : Mat n) :
    maxEntry (fun i j => W i j - W j i) = ((0 : ℚ) : WithBot ℚ) ↔
      ∀ i j, W i j = W j i := by
  constructor
  · intro h i j
    unfold maxEntry at h
    have hle := Finset.sup_le_iff.mp (le_of_eq h)
    have h1 : W i j - W j i ≤ 0 := by
      have hp := hle (i, j) (Finset.mem_univ _)
      simp only at hp
      exact_mod_cast hp
    have h2 : W j i - W i j ≤ 0 := by
      have hp := hle (j, i) (Finset.mem_univ _)
      simp only at hp
      exact_mod_cast hp
    linarith
  · intro h
    unfold maxEntry
    have hconst : (fun p : Fin n × Fin n =>
        (((fun i j => W i j - W j i) p.1 p.2 : ℚ) : WithBot ℚ)) =
        fun _ : Fin n × Fin n => ((0 : ℚ) : WithBot ℚ) := by
      funext p
      show ((W p.1 p.2 - W p.2 p.1 : ℚ) : WithBot ℚ) = ((0 : ℚ) : WithBot ℚ)
      rw [h p.1 p.2, sub_self]
    rw [hconst]
    haveI : Nonempty (Fin n) := ⟨⟨0, hn⟩⟩
    exact Finset.sup_const Finset.univ_nonempty _

/-- Claim C7: for every n ≥ 1 and every square W with (finite, exact)
entries, the directedness test used by geomsurr and randomsurr
classifies W as undirected (drct = 0) if and only if W equals its
transpose: the maximum entry of W - transpose(W) is zero exactly when
W is symmetric. -/
theorem directedFlag_zero_iff_symmetric {n : ℕ} (hn : 0 < n) (W : Mat n) :
    directedFlag W = 0 ↔ ∀ i j, W i j = W j i := by
  unfold directedFlag
  rw [← maxEntry_diff_eq_zero_iff hn W]
  split
  · rename_i h
    simp [h]
  · rename_i h
    constructor
    · intro h10
      exact absurd h10 (by omega)
    · intro hm
      exact absurd hm h

/-- Witness for claim C7 at n = 2, W = [[0,1],[1,0]]. -/
theorem directedFlag_zero_iff_symmetric_example :
    0 < 2 ∧ (directedFlag Wsym2 = 0 ↔ ∀ i j, Wsym2 i j = Wsym2 j i) :=
  ⟨by omega, directedFlag_zero_iff_symmetric (by omega) Wsym2⟩

/- Reading back a masked assignment returns exactly the assigned
   values. -/

lemma pairsL_nodup (n : ℕ) : (pairsL n).Nodup :=
  (List.nodup_finRange n).product (List.nodup_finRange n)

lemma maskedPairs_nodup {n : ℕ} (mask : Fin n → Fin n → Bool) :
    (maskedPairs mask).Nodup :=
  (pairsL_nodup n).filter _

lemma length_maskedValues {n : ℕ} (M : Mat n) (mask : Fin n → Fin n → Bool) :
    (maskedValues M mask).length = (maskedPairs mask).length :=
  List.length_map _ _

lemma maskedValues_assignMasked {n : ℕ} (base : Mat n) (mask : Fin n → Fin n → Bool)
    (vals : List ℚ) (h : vals.length = (maskedPairs mask).length) :
    maskedValues (assignMasked base mask vals) mask = vals := by
  apply List.ext_getElem
  · rw [length_maskedValues, h]
  · intro k h1 h2
    have hk : k < (maskedPairs mask).length := by
      rw [length_maskedValues] at h1
      exact h1
    show ((maskedPairs mask).map
      (fun p => assignMasked base mask vals p.1 p.2))[k] = vals[k]
    rw [List.getElem_map]
    have hmem : (maskedPairs mask)[k] ∈ maskedPairs mask := List.getElem_mem hk
    have hmask : mask ((maskedPairs mask)[k]).1 ((maskedPairs mask)[k]).2 = true :=
      (List.mem_filter.mp hmem).2
    simp only [assignMasked]
    rw [if_pos hmask, Prod.mk.eta]
    have hidx := List.indexOf_getElem (maskedPairs_nodup mask) k hk
    rw [hidx, List.getD_eq_getElem _ _ (by rw [h]; exact hk)]

/-- Claim C8: in geomsurr, for every W, D and every scaffold mnsurr of
the right length (as produced by the fit-shuffle-resynthesis pipeline),
the multiset of values assigned at the valid-edge positions of the
weight-preserving matrix — exp of the rank-reordered log weights,
before symmetrization and strength correction — equals the multiset of
the original valid-edge weights of the triangularized W: the values are
exactly a permutation of the original weights. -/
theorem geom_Wwp_values_perm {n : ℕ} (W : Mat n) (D : Fin n → Fin n → Option ℚ)
    (mnsurr : List ℚ)
    (h : (maskedValues (surr_W1 W) (geom_mask (surr_W1 W) D)).length = mnsurr.length) :
    (maskedValues (geom_Wwp (surr_W1 W) D mnsurr) (geom_mask (surr_W1 W) D)).Perm
      (maskedValues (surr_W1 W) (geom_mask (surr_W1 W) D)) := by
  have hlen2 : (rank_reorder (maskedValues (surr_W1 W) (geom_mask (surr_W1 W) D))
      mnsurr).length = (maskedPairs (geom_mask (surr_W1 W) D)).length := by
    rw [length_rank_reorder, ← h, length_maskedValues]
  rw [geom_Wwp, maskedValues_assignMasked _ _ _ hlen2]
  exact rank_reorder_perm _ mnsurr h

/-- Witness for claim C8 at the symmetric matrix W = [[0,2],[2,0]] with
all distances observed and scaffold [5]: the triangularized W has the
single valid edge (0,1) with weight 2, and the assigned values are a
permutation of [2]. -/
theorem geom_Wwp_values_perm_example :
    ((maskedValues (surr_W1 Wex8) (geom_mask (surr_W1 Wex8) Dex2)).length =
        ([5] : List ℚ).length) ∧
      (maskedValues (geom_Wwp (surr_W1 Wex8) Dex2 ([5] : List ℚ))
          (geom_mask (surr_W1 Wex8) Dex2)).Perm
        (maskedValues (surr_W1 Wex8) (geom_mask (surr_W1 Wex8) Dex2)) := by
  have hflag : directedFlag Wex8 = 0 := by
    unfold directedFlag
    rw [if_pos ((maxEntry_diff_eq_zero_iff (by omega) Wex8).mpr (by decide))]
  have hW1 : surr_W1 Wex8 = triu (fill_diagonal Wex8) := by
    unfold surr_W1
    rw [if_pos hflag]
  have hlen : (maskedValues (surr_W1 Wex8) (geom_mask (surr_W1 Wex8) Dex2)).length =
      ([5] : List ℚ).length := by
    rw [hW1]
    decide
  exact ⟨hlen, geom_Wwp_values_perm Wex8 Dex2 ([5] : List ℚ) hlen⟩

/-- Claim C9: randomsurr and geomsurr mutate the caller-supplied array
W only by setting its diagonal entries to zero — the state of the
caller array at return equals W with zero diagonal and unchanged
off-diagonal entries — and geomsurr returns with the caller array D
entirely unchanged. -/
theorem surrogates_mutate_only_diagonal {n : ℕ} (W : Mat n) (shuff : List ℕ)
    (D : Fin n → Fin n → Option ℚ) (mnsurr : List ℚ) :
    (∀ i j, (randomsurr W shuff).2 i j = if i = j then 0 else W i j) ∧
      (∀ i j, (geomsurr W D mnsurr).2.1 i j = if i = j then 0 else W i j) ∧
      (geomsurr W D mnsurr).2.2 = D :=
  ⟨fun i j => rfl, fun i j => rfl, rfl⟩

/-- Claim C10 (code bug): the shape guard of
build_spearman_correlation_matrix, as written in utils.py line 69,
compares mat1.shape with mat1.shape itself, so the guard never fires
and the documented ValueError is never raised — in particular it is not
raised when the two input shapes differ. -/
theorem spearman_shape_guard_never_fires (s1 s2 : ℕ × ℕ) :
    spearman_shape_guard s1 s2 = false := by
  simp [spearman_shape_guard]

/- The targets that the surrogate functions hand to strength_correct
   are positive at every connected column of the matrix being
   corrected.  These lemmas certify that the inner strength corrections
   of randomsurr and geomsurr run in the regime of
   strength_correct_nonneg_poscol: every divisor at a connected column
   stays positive, so the division convention x / 0 = 0 of the
   embedding is exercised only at columns that the program explicitly
   masks right after each scaling, and the exact model agrees with the
   floating-point program there. -/

lemma rank_reorder_getD_raw {α β : Type} [LinearOrder α] [Inhabited α] [LinearOrder β]
    [Inhabited β] (x : List α) (scaffold : List β) {p : ℕ} (hp : p < scaffold.length) :
    (rank_reorder x scaffold).getD p default =
      (sortAsc x).getD ((argsort (argsort scaffold)).getD p default) default := by
  have hp2 : p < (argsort (argsort scaffold)).length := by
    rw [length_argsort, length_argsort]
    exact hp
  rw [rank_reorder, indexD,
    List.getD_eq_getElem _ _ (by rw [List.length_map]; exact hp2), List.getElem_map]
  congr 1
  rw [List.getD_eq_getElem _ _ hp2]

lemma argsort_argsort_getD_ge_rank {α : Type} [LinearOrder α] [Inhabited α] (l : List α)
    {p : ℕ} (hp : p < l.length) :
    rankOf l p ≤ (argsort (argsort l)).getD p default := by
  have ht : (argsort l).Perm (List.range l.length) := argsort_perm_range l
  set k := (argsort (argsort l)).getD p default with hkdef
  have hinv : (argsort l).getD k default = p := by
    rw [hkdef]
    exact argsort_inverse_of_perm_range ht hp
  have hp2 : p < (argsort (argsort l)).length := by
    rw [length_argsort, length_argsort]
    exact hp
  have hkmem : k ∈ argsort (argsort l) := by
    rw [hkdef, List.getD_eq_getElem _ _ hp2]
    exact List.getElem_mem _
  have hk2 : k < (argsort l).length := mem_argsort_lt (argsort l) hkmem
  have hq : (argsort l).getD k default = (argsort l).get ⟨k, hk2⟩ := by
    rw [List.getD_eq_getElem _ _ hk2]
    rfl
  have hcount := argsort_count_below l k hk2
  rw [← hq, hinv] at hcount
  have hmono : (List.range l.length).countP
      (fun a => decide (l.getD a default < l.getD p default)) ≤
      (List.range l.length).countP (fun a => decide (argsortRel l a p ∧ a ≠ p)) := by
    apply List.countP_mono_left
    intro a _ ha
    simp only [decide_eq_true_eq] at ha ⊢
    refine ⟨Or.inl ha, ?_⟩
    rintro rfl
    exact lt_irrefl _ ha
  have hrank := countP_range_getD l (fun v => decide (v < l.getD p default))
  rw [hrank] at hmono
  unfold rankOf
  exact le_of_le_of_eq hmono hcount

lemma getD_nonneg_of (l : List ℚ) (hl : ∀ a ∈ l, 0 ≤ a) (i : ℕ) : 0 ≤ l.getD i 0 := by
  rcases Nat.lt_or_ge i l.length with h | h
  · rw [List.getD_eq_getElem _ _ h]
    exact hl _ (List.getElem_mem h)
  · rw [List.getD_eq_default _ _ h]

lemma sortAsc_getD_pos (l : List ℚ) (hnn : ∀ a ∈ l, 0 ≤ a) {k : ℕ} (hk : k < l.length)
    (hz : l.countP (fun v => decide (v = 0)) ≤ k) : 0 < (sortAsc l).getD k 0 := by
  have hk2 : k < (sortAsc l).length := by
    rw [length_sortAsc]
    exact hk
  have hnn2 : ∀ a ∈ sortAsc l, 0 ≤ a := fun a ha => hnn a ((sortAsc_perm l).mem_iff.mp ha)
  have hge : 0 ≤ (sortAsc l).getD k 0 := by
    rw [List.getD_eq_getElem _ _ hk2]
    exact hnn2 _ (List.getElem_mem hk2)
  rcases eq_or_lt_of_le hge with heq | hlt
  · exfalso
    have hk3 : (sortAsc l)[k] = 0 := by
      have h3 : (sortAsc l).getD k 0 = 0 := heq.symm
      rwa [List.getD_eq_getElem _ _ hk2] at h3
    have hpair : List.Pairwise (fun a b : ℚ => a ≤ b) (sortAsc l) := sortAsc_sorted l
    have hall : ∀ a ∈ (sortAsc l).take (k + 1), decide (a = 0) = true := by
      intro a hmem
      obtain ⟨i, hi, hia⟩ := List.mem_iff_getElem.mp hmem
      have hik : i < k + 1 := by
        have h5 := hi
        rw [List.length_take] at h5
        omega
      have hi2 : i < (sortAsc l).length := by omega
      have hval : a = (sortAsc l)[i] := by rw [← hia, List.getElem_take]
      have h1 : (sortAsc l)[i] ≤ (sortAsc l)[k] := by
        rcases Nat.lt_or_ge i k with hik2 | hik2
        · exact (List.pairwise_iff_getElem.mp hpair) i k hi2 hk2 hik2
        · have hik3 : i = k := by omega
          subst hik3
          exact le_refl _
      have h2 : (0 : ℚ) ≤ (sortAsc l)[i] := hnn2 _ (List.getElem_mem hi2)
      simp only [decide_eq_true_eq]
      rw [hval]
      rw [hk3] at h1
      linarith
    have htake : ((sortAsc l).take (k + 1)).countP (fun v => decide (v = 0)) = k + 1 := by
      rw [List.countP_eq_length.mpr hall, List.length_take]
      omega
    have hsplit : (sortAsc l).countP (fun v => decide (v = 0)) =
        ((sortAsc l).take (k + 1)).countP (fun v => decide (v = 0)) +
          ((sortAsc l).drop (k + 1)).countP (fun v => decide (v = 0)) := by
      rw [← List.countP_append, List.take_append_drop]
    have hperm : (sortAsc l).countP (fun v => decide (v = 0)) =
        l.countP (fun v => decide (v = 0)) := (sortAsc_perm l).countP_eq _
    omega
  · exact hlt

lemma rank_reorder_target_pos (strW strWwp : List ℚ) (hlen : strW.length = strWwp.length)
    (hWnn : ∀ v ∈ strW, 0 ≤ v)
    (hzero : ∀ q, q < strW.length → strW.getD q 0 = 0 → strWwp.getD q 0 = 0)
    {p : ℕ} (hp : p < strWwp.length) (hpos : 0 < strWwp.getD p 0) :
    0 < (rank_reorder strW strWwp).getD p 0 := by
  have hraw := rank_reorder_getD_raw strW strWwp hp
  set k := (argsort (argsort strWwp)).getD p default with hkdef
  have hp2 : p < (argsort (argsort strWwp)).length := by
    rw [length_argsort, length_argsort]
    exact hp
  have hkmem : k ∈ argsort (argsort strWwp) := by
    rw [hkdef, List.getD_eq_getElem _ _ hp2]
    exact List.getElem_mem _
  have hklt : k < strWwp.length := by
    have := mem_argsort_lt _ hkmem
    rwa [length_argsort] at this
  have hrank : rankOf strWwp p ≤ k := argsort_argsort_getD_ge_rank strWwp hp
  have hz1 : strWwp.countP (fun v => decide (v = 0)) ≤ rankOf strWwp p := by
    unfold rankOf
    apply List.countP_mono_left
    intro v _ hv0
    simp only [decide_eq_true_eq] at hv0 ⊢
    rw [hv0]
    exact hpos
  have hz2 : strW.countP (fun v => decide (v = 0)) ≤
      strWwp.countP (fun v => decide (v = 0)) := by
    have e1 := countP_range_getD strW (fun v => decide (v = 0))
    have e2 := countP_range_getD strWwp (fun v => decide (v = 0))
    rw [← e1, ← e2, ← hlen]
    apply List.countP_mono_left
    intro a hain ha0
    simp only [decide_eq_true_eq] at ha0 ⊢
    exact hzero a (List.mem_range.mp hain) ha0
  have hklt2 : k < strW.length := by
    rw [hlen]
    exact hklt
  have hzk : strW.countP (fun v => decide (v = 0)) ≤ k := by omega
  have hfin := sortAsc_getD_pos strW hWnn hklt2 hzk
  show 0 < (rank_reorder strW strWwp).getD p default
  rw [hraw]
  exact hfin

lemma nz_mask_false_of_zero {n : ℕ} (W1 : Mat n) {i j : Fin n} (h : W1 i j = 0) :
    nz_mask W1 i j = false := by
  simp [nz_mask, h]

lemma fill_diagonal_nonneg {n : ℕ} (M : Mat n) (h : ∀ i j, 0 ≤ M i j) :
    ∀ i j, 0 ≤ fill_diagonal M i j := by
  intro i j
  unfold fill_diagonal
  split
  · exact le_refl 0
  · exact h i j

lemma triu_nonneg {n : ℕ} (M : Mat n) (h : ∀ i j, 0 ≤ M i j) :
    ∀ i j, 0 ≤ triu M i j := by
  intro i j
  unfold triu
  split
  · exact h i j
  · exact le_refl 0

lemma surr_W1_nonneg {n : ℕ} (W : Mat n) (hnn : ∀ i j, 0 ≤ W i j) :
    ∀ i j, 0 ≤ surr_W1 W i j := by
  intro i j
  unfold surr_W1
  by_cases hd : directedFlag W = 0
  · rw [if_pos hd]
    exact triu_nonneg _ (fill_diagonal_nonneg _ hnn) i j
  · rw [if_neg hd]
    exact fill_diagonal_nonneg _ hnn i j

lemma symmetrizeAdd_nonneg {n : ℕ} (M : Mat n) (hM : ∀ i j, 0 ≤ M i j) :
    ∀ i j, 0 ≤ symmetrizeAdd M i j :=
  fun i j => add_nonneg (hM i j) (hM j i)

lemma maskedValues_nonneg {n : ℕ} (M : Mat n) (mask : Fin n → Fin n → Bool)
    (hnn : ∀ i j, 0 ≤ M i j) : ∀ v ∈ maskedValues M mask, 0 ≤ v := by
  intro v hv
  obtain ⟨q, _, rfl⟩ := List.mem_map.mp hv
  exact hnn q.1 q.2

lemma rank_reorder_nonneg {β : Type} [LinearOrder β] [Inhabited β] (x : List ℚ)
    (s : List β) (hx : ∀ a ∈ x, 0 ≤ a) : ∀ v ∈ rank_reorder x s, 0 ≤ v := by
  intro v hv
  rw [rank_reorder, indexD] at hv
  obtain ⟨i, _, rfl⟩ := List.mem_map.mp hv
  exact getD_nonneg_of (sortAsc x) (fun a ha => hx a ((sortAsc_perm x).mem_iff.mp ha)) i

lemma indexD_nonneg (w : List ℚ) (shuff : List ℕ) (hw : ∀ a ∈ w, 0 ≤ a) :
    ∀ v ∈ indexD w shuff, 0 ≤ v := by
  intro v hv
  rw [indexD] at hv
  obtain ⟨i, _, rfl⟩ := List.mem_map.mp hv
  exact getD_nonneg_of w hw i

lemma assignMasked_nonneg {n : ℕ} (mask : Fin n → Fin n → Bool) (vals : List ℚ)
    (hvals : ∀ v ∈ vals, 0 ≤ v) :
    ∀ i j, 0 ≤ assignMasked (fun _ _ => 0) mask vals i j := by
  intro i j
  unfold assignMasked
  split
  · exact getD_nonneg_of vals hvals _
  · exact le_refl 0

lemma geom_Wwp_nonneg {n : ℕ} (W1 : Mat n) (D : Fin n → Fin n → Option ℚ)
    (mnsurr : List ℚ) (h1 : ∀ i j, 0 ≤ W1 i j) : ∀ i j, 0 ≤ geom_Wwp W1 D mnsurr i j := by
  intro i j
  unfold geom_Wwp
  exact assignMasked_nonneg _ _
    (rank_reorder_nonneg _ _ (maskedValues_nonneg W1 _ h1)) i j

lemma randomsurr_Wrs_nonneg {n : ℕ} (W1 : Mat n) (shuff : List ℕ)
    (h1 : ∀ i j, 0 ≤ W1 i j) : ∀ i j, 0 ≤ randomsurr_Wrs W1 shuff i j := by
  intro i j
  unfold randomsurr_Wrs
  exact assignMasked_nonneg _ _ (indexD_nonneg _ shuff (maskedValues_nonneg W1 _ h1)) i j

lemma randomsurr_Wrs_col_zero {n : ℕ} (W1 : Mat n) (shuff : List ℕ) {c : Fin n}
    (hcz : ∀ i, W1 i c = 0) : ∀ i, randomsurr_Wrs W1 shuff i c = 0 := fun i => by
  rw [randomsurr_Wrs, assignMasked_of_mask_false _ _ _ (nz_mask_false_of_zero _ (hcz i))]

lemma randomsurr_Wrs_row_zero {n : ℕ} (W1 : Mat n) (shuff : List ℕ) {c : Fin n}
    (hrz : ∀ i, W1 c i = 0) : ∀ i, randomsurr_Wrs W1 shuff c i = 0 := fun i => by
  rw [randomsurr_Wrs, assignMasked_of_mask_false _ _ _ (nz_mask_false_of_zero _ (hrz i))]

lemma geom_Wwp_col_zero {n : ℕ} (W1 : Mat n) (D : Fin n → Fin n → Option ℚ)
    (mnsurr : List ℚ) {c : Fin n} (hcz : ∀ i, W1 i c = 0) :
    ∀ i, geom_Wwp W1 D mnsurr i c = 0 := fun i => by
  rw [geom_Wwp, assignMasked_of_mask_false _ _ _ (geom_mask_false_of_zero _ D (hcz i))]

lemma geom_Wwp_row_zero {n : ℕ} (W1 : Mat n) (D : Fin n → Fin n → Option ℚ)
    (mnsurr : List ℚ) {c : Fin n} (hrz : ∀ i, W1 c i = 0) :
    ∀ i, geom_Wwp W1 D mnsurr c i = 0 := fun i => by
  rw [geom_Wwp, assignMasked_of_mask_false _ _ _ (geom_mask_false_of_zero _ D (hrz i))]

/- A column of the (possibly symmetrized) triangularized input whose
   sum is zero corresponds, for nonnegative W, to an all-zero column
   (and row, in the undirected branch) of the mask template, so the
   matrix built over the mask has the same zero column. -/

lemma randomsurr_support_transfer {n : ℕ} (W : Mat n) (shuff : List ℕ)
    (hnn : ∀ i j, 0 ≤ W i j) (c : Fin n)
    (h : colsum (if directedFlag W = 0 then symmetrizeAdd (surr_W1 W) else surr_W1 W) c
      = 0) :
    colsum (if directedFlag W = 0 then symmetrizeAdd (randomsurr_Wrs (surr_W1 W) shuff)
      else randomsurr_Wrs (surr_W1 W) shuff) c = 0 := by
  have hW1nn := surr_W1_nonneg W hnn
  by_cases hd : directedFlag W = 0
  · rw [if_pos hd] at h ⊢
    have hentry : ∀ i, symmetrizeAdd (surr_W1 W) i c = 0 := by
      intro i
      unfold colsum at h
      exact (Finset.sum_eq_zero_iff_of_nonneg
        (fun i2 _ => symmetrizeAdd_nonneg _ hW1nn i2 c)).mp h i (Finset.mem_univ i)
    have hcz : ∀ i, surr_W1 W i c = 0 := by
      intro i
      have h0 := hentry i
      unfold symmetrizeAdd at h0
      have h1 := hW1nn i c
      have h2 := hW1nn c i
      linarith
    have hrz : ∀ i, surr_W1 W c i = 0 := by
      intro i
      have h0 := hentry i
      unfold symmetrizeAdd at h0
      have h1 := hW1nn i c
      have h2 := hW1nn c i
      linarith
    unfold colsum
    apply Finset.sum_eq_zero
    intro i _
    unfold symmetrizeAdd
    rw [randomsurr_Wrs_col_zero (surr_W1 W) shuff hcz i,
      randomsurr_Wrs_row_zero (surr_W1 W) shuff hrz i, add_zero]
  · rw [if_neg hd] at h ⊢
    have hcz : ∀ i, surr_W1 W i c = 0 := by
      intro i
      unfold colsum at h
      exact (Finset.sum_eq_zero_iff_of_nonneg (fun i2 _ => hW1nn i2 c)).mp h i
        (Finset.mem_univ i)
    unfold colsum
    apply Finset.sum_eq_zero
    intro i _
    exact randomsurr_Wrs_col_zero (surr_W1 W) shuff hcz i

lemma geomsurr_support_transfer {n : ℕ} (W : Mat n) (D : Fin n → Fin n → Option ℚ)
    (mnsurr : List ℚ) (hnn : ∀ i j, 0 ≤ W i j) (c : Fin n)
    (h : colsum (if directedFlag W = 0 then symmetrizeAdd (surr_W1 W) else surr_W1 W) c
      = 0) :
    colsum (if directedFlag W = 0 then symmetrizeAdd (geom_Wwp (surr_W1 W) D mnsurr)
      else geom_Wwp (surr_W1 W) D mnsurr) c = 0 := by
  have hW1nn := surr_W1_nonneg W hnn
  by_cases hd : directedFlag W = 0
  · rw [if_pos hd] at h ⊢
    have hentry : ∀ i, symmetrizeAdd (surr_W1 W) i c = 0 := by
      intro i
      unfold colsum at h
      exact (Finset.sum_eq_zero_iff_of_nonneg
        (fun i2 _ => symmetrizeAdd_nonneg _ hW1nn i2 c)).mp h i (Finset.mem_univ i)
    have hcz : ∀ i, surr_W1 W i c = 0 := by
      intro i
      have h0 := hentry i
      unfold symmetrizeAdd at h0
      have h1 := hW1nn i c
      have h2 := hW1nn c i
      linarith
    have hrz : ∀ i, surr_W1 W c i = 0 := by
      intro i
      have h0 := hentry i
      unfold symmetrizeAdd at h0
      have h1 := hW1nn i c
      have h2 := hW1nn c i
      linarith
    unfold colsum
    apply Finset.sum_eq_zero
    intro i _
    unfold symmetrizeAdd
    rw [geom_Wwp_col_zero (surr_W1 W) D mnsurr hcz i,
      geom_Wwp_row_zero (surr_W1 W) D mnsurr hrz i, add_zero]
  · rw [if_neg hd] at h ⊢
    have hcz : ∀ i, surr_W1 W i c = 0 := by
      intro i
      unfold colsum at h
      exact (Finset.sum_eq_zero_iff_of_nonneg (fun i2 _ => hW1nn i2 c)).mp h i
        (Finset.mem_univ i)
    unfold colsum
    apply Finset.sum_eq_zero
    intro i _
    exact geom_Wwp_col_zero (surr_W1 W) D mnsurr hcz i

/-- The target sequence that randomsurr hands to strength_correct —
the column sums of the (possibly re-symmetrized) input — is positive at
every column where the matrix being corrected has a nonzero column sum,
for nonnegative W.  Together with strength_correct_nonneg_poscol this
shows the inner strength correction of randomsurr never divides by a
zero column sum except at columns it immediately masks, for every
shuffle. -/
lemma randomsurr_inner_target_pos {n : ℕ} (W : Mat n) (shuff : List ℕ)
    (hnn : ∀ i j, 0 ≤ W i j) (c : Fin n)
    (hc : colsum (if directedFlag W = 0 then
        symmetrizeAdd (randomsurr_Wrs (surr_W1 W) shuff)
      else randomsurr_Wrs (surr_W1 W) shuff) c ≠ 0) :
    0 < colsum (if directedFlag W = 0 then symmetrizeAdd (surr_W1 W) else surr_W1 W) c := by
  have hW1nn := surr_W1_nonneg W hnn
  have hge : 0 ≤ colsum (if directedFlag W = 0 then symmetrizeAdd (surr_W1 W)
      else surr_W1 W) c := by
    apply Finset.sum_nonneg
    intro i _
    by_cases hd : directedFlag W = 0
    · rw [if_pos hd]
      exact symmetrizeAdd_nonneg _ hW1nn i c
    · rw [if_neg hd]
      exact hW1nn i c
  rcases eq_or_lt_of_le hge with heq | hlt
  · exact absurd (randomsurr_support_transfer W shuff hnn c heq.symm) hc
  · exact hlt

lemma finRange_map_getD_rat {n : ℕ} (f : Fin n → ℚ) {q : ℕ} (hq : q < n) :
    ((List.finRange n).map f).getD q 0 = f ⟨q, hq⟩ := by
  have hq2 : q < ((List.finRange n).map f).length := by
    rw [List.length_map, List.length_finRange]
    exact hq
  rw [List.getD_eq_getElem _ _ hq2, List.getElem_map]
  congr 1
  apply Fin.ext
  simp [List.getElem_finRange]

/-- The target sequence that geomsurr hands to strength_correct — the
column sums of the original, rank-reordered to match the surrogate
strength order — is positive at every column where the matrix being
corrected has a nonzero column sum, for nonnegative W and every
scaffold mnsurr.  The key facts are that the zero-strength columns of
the original are zero-strength columns of the weight-preserving matrix
(geomsurr_support_transfer), and that rank reordering places a zero
value only at positions whose scaffold rank lies below the number of
zeros, which a positive-strength column never does.  Together with
strength_correct_nonneg_poscol this shows the inner strength
correction of geomsurr never divides by a zero column sum except at
columns it immediately masks. -/
lemma geomsurr_inner_target_pos {n : ℕ} (W : Mat n) (D : Fin n → Fin n → Option ℚ)
    (mnsurr : List ℚ) (hnn : ∀ i j, 0 ≤ W i j) (c : Fin n)
    (hc : colsum (if directedFlag W = 0 then
        symmetrizeAdd (geom_Wwp (surr_W1 W) D mnsurr)
      else geom_Wwp (surr_W1 W) D mnsurr) c ≠ 0) :
    0 < (rank_reorder
      ((List.finRange n).map (colsum (if directedFlag W = 0 then
        symmetrizeAdd (surr_W1 W) else surr_W1 W)))
      ((List.finRange n).map (colsum (if directedFlag W = 0 then
        symmetrizeAdd (geom_Wwp (surr_W1 W) D mnsurr)
      else geom_Wwp (surr_W1 W) D mnsurr)))).getD (c : ℕ) 0 := by
  have hW1nn := surr_W1_nonneg W hnn
  have hW2nn : ∀ i j, 0 ≤ (if directedFlag W = 0 then symmetrizeAdd (surr_W1 W)
      else surr_W1 W) i j := by
    intro i j
    by_cases hd : directedFlag W = 0
    · rw [if_pos hd]
      exact symmetrizeAdd_nonneg _ hW1nn i j
    · rw [if_neg hd]
      exact hW1nn i j
  have hWwpnn : ∀ i j, 0 ≤ (if directedFlag W = 0 then
      symmetrizeAdd (geom_Wwp (surr_W1 W) D mnsurr)
      else geom_Wwp (surr_W1 W) D mnsurr) i j := by
    intro i j
    by_cases hd : directedFlag W = 0
    · rw [if_pos hd]
      exact symmetrizeAdd_nonneg _ (geom_Wwp_nonneg _ D mnsurr hW1nn) i j
    · rw [if_neg hd]
      exact geom_Wwp_nonneg _ D mnsurr hW1nn i j
  apply rank_reorder_target_pos
  · rw [List.length_map, List.length_map]
  · intro v hv
    obtain ⟨a, _, rfl⟩ := List.mem_map.mp hv
    exact Finset.sum_nonneg (fun i _ => hW2nn i a)
  · intro q hq h0
    have hqn : q < n := by
      rw [List.length_map, List.length_finRange] at hq
      exact hq
    rw [finRange_map_getD_rat _ hqn] at h0
    rw [finRange_map_getD_rat _ hqn]
    exact geomsurr_support_transfer W D mnsurr hnn ⟨q, hqn⟩ h0
  · rw [List.length_map, List.length_finRange]
    exact c.isLt
  · rw [finRange_map_getD_rat _ c.isLt]
    have hec : (⟨(c : ℕ), c.isLt⟩ : Fin n) = c := rfl
    rw [hec]
    have hge : 0 ≤ colsum (if directedFlag W = 0 then
        symmetrizeAdd (geom_Wwp (surr_W1 W) D mnsurr)
        else geom_Wwp (surr_W1 W) D mnsurr) c :=
      Finset.sum_nonneg (fun i _ => hWwpnn i c)
    rcases eq_or_lt_of_le hge with heq | hlt
    · exact absurd heq.symm hc
    · exact hlt
